import Mathlib

/-!
Verification of the `ifttt-lint` linting engine against its specification.

The development shallowly embeds the TypeScript sources:
* `src/DiffParser.ts` — the diff pre-filter and the per-chunk line-number walk
  of `parseChangedLines` (the external `parse-diff` reader is modelled by its
  output type `DiffFile`, as described by the spec);
* `src/DirectiveParser.ts` — `parseFileDirectives` and `extractDirectives`,
  with the regular expressions hand-compiled to executable character-list
  matchers and the external comment extractor modelled as a parameter;
* `src/DirectiveValidator.ts` — `validateDirectiveUniqueness`;
* `src/LintEngine.ts` — `lintDiff`, as a pure function of an environment
  that supplies the parsed diff, the per-file parse results and the
  filesystem probe.  The worker pool is modelled by processing files in list
  order (the engine's diagnostics are aggregated the same way regardless of
  completion order); verbose-only traces are not part of the modelled
  violation stream.
All machine integers involved are line numbers and counts, which the source
manipulates as exact small integers, so they are modelled by `Nat`.
-/

namespace Ifttt

/-! ### Directives (`src/LintPrimitives.ts`) -/

/-- A lint directive: tagged union of the four kinds, each with its 1-based
source line, mirroring `LintDirective` in `src/LintPrimitives.ts`. -/
inductive LintDirective where
  | ifChange (line : Nat) (lab : Option String)
  | thenChange (line : Nat) (target : String)
  | labelDir (line : Nat) (name : String)
  | endLabel (line : Nat)
deriving DecidableEq, Repr

/-! ### Diff chunk walk (`src/DiffParser.ts`, `parseChangedLines`) -/

/-- Change tag of one diff line, as delivered by the `parse-diff` reader:
`add`, `del`, or anything else (context). -/
inductive ChangeType where
  | add
  | del
  | context
deriving DecidableEq, Repr

/-- One hunk as delivered by the `parse-diff` reader: `oldStart`, `newStart`
and the ordered change tags. -/
structure Chunk where
  oldStart : Nat
  newStart : Nat
  changes : List ChangeType
deriving DecidableEq, Repr

/-- JavaScript `Set.add` on an insertion-ordered number set: append the
element unless it is already present. -/
def setAdd (l : List Nat) (n : Nat) : List Nat :=
  if n ∈ l then l else l ++ [n]

/-- The chunk walk of `parseChangedLines` (src/DiffParser.ts lines 201-214):
maintain `oldLine`/`newLine` counters; an `add` records `newLine` into
`added` then increments it, a `del` records `oldLine` into `removed` then
increments it, and a context line increments both counters. -/
def walkChanges : List ChangeType → Nat → Nat → List Nat → List Nat →
    List Nat × List Nat
  | [], _, _, added, removed => (added, removed)
  | .add :: rest, oldLine, newLine, added, removed =>
      walkChanges rest oldLine (newLine + 1) (setAdd added newLine) removed
  | .del :: rest, oldLine, newLine, added, removed =>
      walkChanges rest (oldLine + 1) newLine added (setAdd removed oldLine)
  | .context :: rest, oldLine, newLine, added, removed =>
      walkChanges rest (oldLine + 1) (newLine + 1) added removed

/-- Per-file accumulation over all chunks, threading the two sets, with the
counters re-initialised to `oldStart`/`newStart` at each chunk. -/
def fileWalk (chunks : List Chunk) : List Nat × List Nat :=
  chunks.foldl
    (fun acc ch => walkChanges ch.changes ch.oldStart ch.newStart acc.1 acc.2)
    ([], [])

/-- How much one change advances the new-file counter. -/
def newInc : ChangeType → Nat
  | .add => 1
  | .del => 0
  | .context => 1

/-- How much one change advances the old-file counter. -/
def oldInc : ChangeType → Nat
  | .add => 0
  | .del => 1
  | .context => 1

/-- Total advance of the new-file counter over a prefix of changes. -/
def newOffset (cs : List ChangeType) : Nat := (cs.map newInc).sum

/-- Total advance of the old-file counter over a prefix of changes. -/
def oldOffset (cs : List ChangeType) : Nat := (cs.map oldInc).sum

theorem setAdd_mem (l : List Nat) (n m : Nat) :
    m ∈ setAdd l n ↔ m ∈ l ∨ m = n := by
  unfold setAdd
  split
  · rename_i h
    constructor
    · exact Or.inl
    · rintro (hm | rfl)
      · exact hm
      · exact h
  · simp [List.mem_append]

theorem newOffset_cons (c : ChangeType) (cs : List ChangeType) :
    newOffset (c :: cs) = newInc c + newOffset cs := by
  simp [newOffset]

theorem oldOffset_cons (c : ChangeType) (cs : List ChangeType) :
    oldOffset (c :: cs) = oldInc c + oldOffset cs := by
  simp [oldOffset]

/-- Membership characterisation of the chunk walk: a line number is in the
output `added` set iff it was already accumulated or some `add` change
records it, at the new-file position `newLine₀ +` (advance of the changes
before it); symmetrically for `removed` with `del` and old-file positions. -/
theorem walkChanges_mem (cs : List ChangeType) (o n : Nat)
    (a r : List Nat) (m : Nat) :
    (m ∈ (walkChanges cs o n a r).1 ↔
      m ∈ a ∨ ∃ i, ∃ h : i < cs.length,
        cs.get ⟨i, h⟩ = .add ∧ m = n + newOffset (cs.take i)) ∧
    (m ∈ (walkChanges cs o n a r).2 ↔
      m ∈ r ∨ ∃ i, ∃ h : i < cs.length,
        cs.get ⟨i, h⟩ = .del ∧ m = o + oldOffset (cs.take i)) := by
  induction cs generalizing o n a r with
  | nil =>
      simp [walkChanges]
  | cons c rest ih =>
      cases c with
      | add =>
          refine ⟨?_, ?_⟩
          · simp only [walkChanges]
            rw [(ih o (n + 1) (setAdd a n) r).1, setAdd_mem]
            constructor
            · rintro ((hm | rfl) | ⟨i, hi, hadd, rfl⟩)
              · exact Or.inl hm
              · refine Or.inr ⟨0, by simp, by simp, ?_⟩
                simp [newOffset]
              · refine Or.inr ⟨i + 1, by simpa using Nat.succ_lt_succ hi,
                  by simpa using hadd, ?_⟩
                simp only [List.take_succ_cons, newOffset_cons, newInc]
                omega
            · rintro (hm | ⟨i, hi, hadd, hm⟩)
              · exact Or.inl (Or.inl hm)
              · cases i with
                | zero =>
                    refine Or.inl (Or.inr ?_)
                    simp [newOffset] at hm
                    omega
                | succ j =>
                    refine Or.inr ⟨j, by simpa using hi, by simpa using hadd, ?_⟩
                    simp only [List.take_succ_cons, newOffset_cons, newInc] at hm
                    omega
          · simp only [walkChanges]
            rw [(ih o (n + 1) (setAdd a n) r).2]
            constructor
            · rintro (hm | ⟨i, hi, hdel, rfl⟩)
              · exact Or.inl hm
              · refine Or.inr ⟨i + 1, by simpa using Nat.succ_lt_succ hi,
                  by simpa using hdel, ?_⟩
                simp only [List.take_succ_cons, oldOffset_cons, oldInc]
                omega
            · rintro (hm | ⟨i, hi, hdel, hm⟩)
              · exact Or.inl hm
              · cases i with
                | zero => simp at hdel
                | succ j =>
                    refine Or.inr ⟨j, by simpa using hi, by simpa using hdel, ?_⟩
                    simp only [List.take_succ_cons, oldOffset_cons, oldInc] at hm
                    omega
      | del =>
          refine ⟨?_, ?_⟩
          · simp only [walkChanges]
            rw [(ih (o + 1) n a (setAdd r o)).1]
            constructor
            · rintro (hm | ⟨i, hi, hadd, rfl⟩)
              · exact Or.inl hm
              · refine Or.inr ⟨i + 1, by simpa using Nat.succ_lt_succ hi,
                  by simpa using hadd, ?_⟩
                simp only [List.take_succ_cons, newOffset_cons, newInc]
                omega
            · rintro (hm | ⟨i, hi, hadd, hm⟩)
              · exact Or.inl hm
              · cases i with
                | zero => simp at hadd
                | succ j =>
                    refine Or.inr ⟨j, by simpa using hi, by simpa using hadd, ?_⟩
                    simp only [List.take_succ_cons, newOffset_cons, newInc] at hm
                    omega
          · simp only [walkChanges]
            rw [(ih (o + 1) n a (setAdd r o)).2, setAdd_mem]
            constructor
            · rintro ((hm | rfl) | ⟨i, hi, hdel, rfl⟩)
              · exact Or.inl hm
              · refine Or.inr ⟨0, by simp, by simp, ?_⟩
                simp [oldOffset]
              · refine Or.inr ⟨i + 1, by simpa using Nat.succ_lt_succ hi,
                  by simpa using hdel, ?_⟩
                simp only [List.take_succ_cons, oldOffset_cons, oldInc]
                omega
            · rintro (hm | ⟨i, hi, hdel, hm⟩)
              · exact Or.inl (Or.inl hm)
              · cases i with
                | zero =>
                    refine Or.inl (Or.inr ?_)
                    simp [oldOffset] at hm
                    omega
                | succ j =>
                    refine Or.inr ⟨j, by simpa using hi, by simpa using hdel, ?_⟩
                    simp only [List.take_succ_cons, oldOffset_cons, oldInc] at hm
                    omega
      | context =>
          refine ⟨?_, ?_⟩
          · simp only [walkChanges]
            rw [(ih (o + 1) (n + 1) a r).1]
            constructor
            · rintro (hm | ⟨i, hi, hadd, rfl⟩)
              · exact Or.inl hm
              · refine Or.inr ⟨i + 1, by simpa using Nat.succ_lt_succ hi,
                  by simpa using hadd, ?_⟩
                simp only [List.take_succ_cons, newOffset_cons, newInc]
                omega
            · rintro (hm | ⟨i, hi, hadd, hm⟩)
              · exact Or.inl hm
              · cases i with
                | zero => simp at hadd
                | succ j =>
                    refine Or.inr ⟨j, by simpa using hi, by simpa using hadd, ?_⟩
                    simp only [List.take_succ_cons, newOffset_cons, newInc] at hm
                    omega
          · simp only [walkChanges]
            rw [(ih (o + 1) (n + 1) a r).2]
            constructor
            · rintro (hm | ⟨i, hi, hdel, rfl⟩)
              · exact Or.inl hm
              · refine Or.inr ⟨i + 1, by simpa using Nat.succ_lt_succ hi,
                  by simpa using hdel, ?_⟩
                simp only [List.take_succ_cons, oldOffset_cons, oldInc]
                omega
            · rintro (hm | ⟨i, hi, hdel, hm⟩)
              · exact Or.inl hm
              · cases i with
                | zero => simp at hdel
                | succ j =>
                    refine Or.inr ⟨j, by simpa using hi, by simpa using hdel, ?_⟩
                    simp only [List.take_succ_cons, oldOffset_cons, oldInc] at hm
                    omega

theorem setAdd_nodup (l : List Nat) (n : Nat) (h : l.Nodup) :
    (setAdd l n).Nodup := by
  unfold setAdd
  split
  · exact h
  · rename_i hn
    simpa [List.nodup_append, h] using hn

theorem walkChanges_nodup (cs : List ChangeType) (o n : Nat)
    (a r : List Nat) (ha : a.Nodup) (hr : r.Nodup) :
    (walkChanges cs o n a r).1.Nodup ∧ (walkChanges cs o n a r).2.Nodup := by
  induction cs generalizing o n a r with
  | nil => exact ⟨ha, hr⟩
  | cons c rest ih =>
      cases c with
      | add => exact ih o (n + 1) (setAdd a n) r (setAdd_nodup a n ha) hr
      | del => exact ih (o + 1) n a (setAdd r o) ha (setAdd_nodup r o hr)
      | context => exact ih (o + 1) (n + 1) a r ha hr

theorem walkChanges_chain (cs : List ChangeType) (o n : Nat)
    (a r : List Nat)
    (ha : List.Chain' (· < ·) a) (han : ∀ x ∈ a, x < n)
    (hr : List.Chain' (· < ·) r) (hro : ∀ x ∈ r, x < o) :
    List.Chain' (· < ·) (walkChanges cs o n a r).1 ∧
      List.Chain' (· < ·) (walkChanges cs o n a r).2 := by
  induction cs generalizing o n a r with
  | nil => exact ⟨ha, hr⟩
  | cons c rest ih =>
      cases c with
      | add =>
          refine ih o (n + 1) (setAdd a n) r ?_ ?_ hr hro
          · have hnm : n ∉ a := fun hn => lt_irrefl n (han n hn)
            rw [setAdd, if_neg hnm]
            rw [List.chain'_append]
            refine ⟨ha, List.chain'_singleton n, ?_⟩
            intro x hx y hy
            simp at hy
            subst hy
            exact han x (List.mem_of_mem_getLast? hx)
          · intro x hx
            rcases (setAdd_mem a n x).1 hx with hxa | rfl
            · exact Nat.lt_succ_of_lt (han x hxa)
            · exact Nat.lt_succ_self x
      | del =>
          refine ih (o + 1) n a (setAdd r o) ha han ?_ ?_
          · have hom : o ∉ r := fun ho => lt_irrefl o (hro o ho)
            rw [setAdd, if_neg hom]
            rw [List.chain'_append]
            refine ⟨hr, List.chain'_singleton o, ?_⟩
            intro x hx y hy
            simp at hy
            subst hy
            exact hro x (List.mem_of_mem_getLast? hx)
          · intro x hx
            rcases (setAdd_mem r o x).1 hx with hxr | rfl
            · exact Nat.lt_succ_of_lt (hro x hxr)
            · exact Nat.lt_succ_self x
      | context =>
          refine ih (o + 1) (n + 1) a r ha ?_ hr ?_
          · exact fun x hx => Nat.lt_succ_of_lt (han x hx)
          · exact fun x hx => Nat.lt_succ_of_lt (hro x hx)

theorem fileWalk_foldl_mem (chunks : List Chunk)
    (init : List Nat × List Nat) (m : Nat) :
    (m ∈ (chunks.foldl
        (fun acc ch => walkChanges ch.changes ch.oldStart ch.newStart acc.1 acc.2)
        init).1 ↔
      m ∈ init.1 ∨ ∃ ch ∈ chunks, ∃ i, ∃ h : i < ch.changes.length,
        ch.changes.get ⟨i, h⟩ = .add ∧
          m = ch.newStart + newOffset (ch.changes.take i)) ∧
    (m ∈ (chunks.foldl
        (fun acc ch => walkChanges ch.changes ch.oldStart ch.newStart acc.1 acc.2)
        init).2 ↔
      m ∈ init.2 ∨ ∃ ch ∈ chunks, ∃ i, ∃ h : i < ch.changes.length,
        ch.changes.get ⟨i, h⟩ = .del ∧
          m = ch.oldStart + oldOffset (ch.changes.take i)) := by
  induction chunks generalizing init with
  | nil => simp
  | cons ch rest ih =>
      refine ⟨?_, ?_⟩
      · rw [List.foldl_cons,
          (ih (walkChanges ch.changes ch.oldStart ch.newStart init.1 init.2)).1,
          (walkChanges_mem ch.changes ch.oldStart ch.newStart init.1 init.2 m).1]
        constructor
        · rintro ((hm | hch) | ⟨ch2, hch2, hrest⟩)
          · exact Or.inl hm
          · exact Or.inr ⟨ch, List.mem_cons_self ch rest, hch⟩
          · exact Or.inr ⟨ch2, List.mem_cons_of_mem ch hch2, hrest⟩
        · rintro (hm | ⟨ch2, hch2, hrest⟩)
          · exact Or.inl (Or.inl hm)
          · rcases List.mem_cons.1 hch2 with rfl | hch2
            · exact Or.inl (Or.inr hrest)
            · exact Or.inr ⟨ch2, hch2, hrest⟩
      · rw [List.foldl_cons,
          (ih (walkChanges ch.changes ch.oldStart ch.newStart init.1 init.2)).2,
          (walkChanges_mem ch.changes ch.oldStart ch.newStart init.1 init.2 m).2]
        constructor
        · rintro ((hm | hch) | ⟨ch2, hch2, hrest⟩)
          · exact Or.inl hm
          · exact Or.inr ⟨ch, List.mem_cons_self ch rest, hch⟩
          · exact Or.inr ⟨ch2, List.mem_cons_of_mem ch hch2, hrest⟩
        · rintro (hm | ⟨ch2, hch2, hrest⟩)
          · exact Or.inl (Or.inl hm)
          · rcases List.mem_cons.1 hch2 with rfl | hch2
            · exact Or.inl (Or.inr hrest)
            · exact Or.inr ⟨ch2, hch2, hrest⟩

/-- C5: `parseChangedLines` walks every chunk with counters starting at
`oldStart`/`newStart`; an `add` records the current new-file line into the
added set and advances the new-file counter, a `del` records the current
old-file line into the removed set and advances the old-file counter, and a
context line advances both counters without recording.  Consequently a
number is in the added set of a file entry exactly when some `add` change of
some chunk sits at new-file position `newStart +` (advance of the preceding
changes), and symmetrically for the removed set with `del` and old-file
positions: the added set holds new-file line numbers and the removed set
holds old-file line numbers. -/
theorem C5_parseChangedLines_line_numbers :
    ∀ (cs : List ChangeType) (o n : Nat) (a r : List Nat)
      (chunks : List Chunk) (m : Nat),
      (m ∈ (walkChanges cs o n a r).1 ↔
        m ∈ a ∨ ∃ i, ∃ h : i < cs.length,
          cs.get ⟨i, h⟩ = .add ∧ m = n + newOffset (cs.take i)) ∧
      (m ∈ (walkChanges cs o n a r).2 ↔
        m ∈ r ∨ ∃ i, ∃ h : i < cs.length,
          cs.get ⟨i, h⟩ = .del ∧ m = o + oldOffset (cs.take i)) ∧
      (m ∈ (fileWalk chunks).1 ↔
        ∃ ch ∈ chunks, ∃ i, ∃ h : i < ch.changes.length,
          ch.changes.get ⟨i, h⟩ = .add ∧
            m = ch.newStart + newOffset (ch.changes.take i)) ∧
      (m ∈ (fileWalk chunks).2 ↔
        ∃ ch ∈ chunks, ∃ i, ∃ h : i < ch.changes.length,
          ch.changes.get ⟨i, h⟩ = .del ∧
            m = ch.oldStart + oldOffset (ch.changes.take i)) := by
  intro cs o n a r chunks m
  refine ⟨(walkChanges_mem cs o n a r m).1, (walkChanges_mem cs o n a r m).2,
    ?_, ?_⟩
  · rw [fileWalk, (fileWalk_foldl_mem chunks ([], []) m).1]
    simp
  · rw [fileWalk, (fileWalk_foldl_mem chunks ([], []) m).2]
    simp

/-- C7 is refuted at this input: a hunk consisting of a `del` immediately
followed by an `add` (a one-line replacement, `oldStart = newStart = 1`)
records line 1 both as removed (old file) and as added (new file), so the
two sets of this file entry are not disjoint. -/
theorem C7_counterexample :
    1 ∈ (fileWalk [Chunk.mk 1 1 [.del, .add]]).1 ∧
    1 ∈ (fileWalk [Chunk.mk 1 1 [.del, .add]]).2 := by
  decide

/-- C7 amended: the added and removed sets of a file entry need not be
disjoint (added holds new-file numbers and removed holds old-file numbers,
which can coincide, e.g. for a one-line replacement); what does hold is
that each set separately never acquires a duplicate, and within a single
chunk walked from empty sets the recorded added line numbers are strictly
increasing, as are the recorded removed line numbers. -/
theorem C7_amended_nodup_and_sorted :
    ∀ (cs : List ChangeType) (o n : Nat) (chunks : List Chunk),
      (fileWalk chunks).1.Nodup ∧ (fileWalk chunks).2.Nodup ∧
      List.Chain' (· < ·) (walkChanges cs o n [] []).1 ∧
      List.Chain' (· < ·) (walkChanges cs o n [] []).2 := by
  intro cs o n chunks
  have hchain := walkChanges_chain cs o n [] []
    (List.chain'_nil) (by simp) (List.chain'_nil) (by simp)
  have hfold : ∀ (l : List Chunk) (init : List Nat × List Nat),
      init.1.Nodup → init.2.Nodup →
      (l.foldl
        (fun acc ch => walkChanges ch.changes ch.oldStart ch.newStart acc.1 acc.2)
        init).1.Nodup ∧
      (l.foldl
        (fun acc ch => walkChanges ch.changes ch.oldStart ch.newStart acc.1 acc.2)
        init).2.Nodup := by
    intro l
    induction l with
    | nil => exact fun init h1 h2 => ⟨h1, h2⟩
    | cons ch rest ih =>
        intro init h1 h2
        rw [List.foldl_cons]
        have hw := walkChanges_nodup ch.changes ch.oldStart ch.newStart
          init.1 init.2 h1 h2
        exact ih _ hw.1 hw.2
  have := hfold chunks ([], []) (List.nodup_nil) (List.nodup_nil)
  exact ⟨this.1, this.2, hchain.1, hchain.2⟩

/-! ### Pairing latch (`src/LintEngine.ts`, `lintDiff` Step 1) -/

/-- A formed `IfChange`/`ThenChange` pair, mirroring `PairDirective` in
`src/LintEngine.ts`. -/
structure PairDirective where
  file : String
  ifLine : Nat
  ifLabel : Option String
  thenTarget : String
  thenLine : Nat
deriving DecidableEq, Repr

/-- The per-file mutable state of `lintDiff`'s directive scan: the current
`IfChange` latch, the `sawThen` flag, and the accumulated pairs and orphan
`ThenChange` records (line, target). -/
structure ScanState where
  currentIf : Option (Nat × Option String)
  sawThen : Bool
  pairs : List PairDirective
  orphanThen : List (Nat × String)
deriving DecidableEq, Repr

/-- An `IfChange` left without any `ThenChange` at end of file. -/
structure OrphanIf where
  file : String
  line : Nat
  ifLabel : Option String
deriving DecidableEq, Repr

/-- One step of the directive loop in `lintDiff` (src/LintEngine.ts lines
125-139): `IfChange` sets the latch and clears `sawThen`; `ThenChange`
records an orphan when the latch is empty and otherwise appends a pair and
sets `sawThen`; `Label`/`EndLabel` are ignored by this loop. -/
def scanStep (file : String) (s : ScanState) (d : LintDirective) : ScanState :=
  match d with
  | .ifChange line lab => { s with currentIf := some (line, lab), sawThen := false }
  | .thenChange line target =>
      match s.currentIf with
      | none => { s with orphanThen := s.orphanThen ++ [(line, target)] }
      | some (il, ilab) =>
          { s with pairs := s.pairs ++ [⟨file, il, ilab, target, line⟩],
                   sawThen := true }
  | .labelDir _ _ => s
  | .endLabel _ => s

/-- The whole per-file scan, from the initial empty state. -/
def scanDirectives (file : String) (ds : List LintDirective) : ScanState :=
  ds.foldl (scanStep file) ⟨none, false, [], []⟩

/-- The end-of-file check of `lintDiff` (src/LintEngine.ts lines 141-143):
an `IfChange` that is current with `sawThen` still false becomes an orphan. -/
def orphanIfOf (file : String) (ds : List LintDirective) : List OrphanIf :=
  let s := scanDirectives file ds
  match s.currentIf with
  | some c => if s.sawThen then [] else [⟨file, c.1, c.2⟩]
  | none => []

theorem scanDirectives_append (file : String) (ds : List LintDirective)
    (d : LintDirective) :
    scanDirectives file (ds ++ [d]) = scanStep file (scanDirectives file ds) d := by
  simp [scanDirectives, List.foldl_append]

theorem scanStep_thenChange_run (file : String) (s : ScanState)
    (il : Nat) (ilab : Option String) (ts : List (Nat × String))
    (h : s.currentIf = some (il, ilab)) :
    (ts.map (fun p => LintDirective.thenChange p.1 p.2)).foldl (scanStep file) s =
      { s with
          pairs := s.pairs ++ ts.map (fun p => ⟨file, il, ilab, p.2, p.1⟩),
          sawThen := s.sawThen || ts.length > 0 } := by
  induction ts generalizing s with
  | nil => simp
  | cons p rest ih =>
      rw [List.map_cons, List.foldl_cons]
      have hstep : scanStep file s (LintDirective.thenChange p.1 p.2) =
          { s with pairs := s.pairs ++ [⟨file, il, ilab, p.2, p.1⟩],
                   sawThen := true } := by
        simp [scanStep, h]
      rw [hstep, ih _ (by simp [h])]
      simp

/-- C1: the source-side pass of `lintDiff` pairs directives with a single
latch.  An `IfChange` sets the current latch and clears `sawThen` (leaving
the accumulated pairs and orphans alone); a `ThenChange` under a set latch
appends the pair `{file, ifLine, ifLabel, thenTarget, thenLine}` and sets
`sawThen`; a `ThenChange` under an empty latch is recorded as an orphan
`ThenChange`; one `IfChange` pairs with every consecutive following
`ThenChange` until the next `IfChange`; and at end of file an `IfChange`
whose `sawThen` flag is still false is recorded as an orphan `IfChange`. -/
theorem C1_pairing_latch :
    ∀ (file : String) (ds : List LintDirective) (line tl : Nat)
      (lab : Option String) (t : String) (ts : List (Nat × String)),
      (scanDirectives file (ds ++ [.ifChange line lab]) =
        { scanDirectives file ds with
            currentIf := some (line, lab), sawThen := false }) ∧
      (∀ il ilab, (scanDirectives file ds).currentIf = some (il, ilab) →
        scanDirectives file (ds ++ [.thenChange tl t]) =
          { scanDirectives file ds with
              pairs := (scanDirectives file ds).pairs ++ [⟨file, il, ilab, t, tl⟩],
              sawThen := true }) ∧
      ((scanDirectives file ds).currentIf = none →
        scanDirectives file (ds ++ [.thenChange tl t]) =
          { scanDirectives file ds with
              orphanThen := (scanDirectives file ds).orphanThen ++ [(tl, t)] }) ∧
      (∀ il ilab, (scanDirectives file ds).currentIf = some (il, ilab) →
        (scanDirectives file ds).sawThen = false →
        orphanIfOf file ds = [⟨file, il, ilab⟩]) ∧
      ((scanDirectives file ds).sawThen = true → orphanIfOf file ds = []) ∧
      ((scanDirectives file ds).currentIf = none → orphanIfOf file ds = []) ∧
      ((scanDirectives file
          (ds ++ .ifChange line lab :: ts.map (fun p => .thenChange p.1 p.2))).pairs =
        (scanDirectives file ds).pairs ++
          ts.map (fun p => ⟨file, line, lab, p.2, p.1⟩)) := by
  intro file ds line tl lab t ts
  refine ⟨?_, ?_, ?_, ?_, ?_, ?_, ?_⟩
  · rw [scanDirectives_append]
    rfl
  · intro il ilab h
    rw [scanDirectives_append]
    simp [scanStep, h]
  · intro h
    rw [scanDirectives_append]
    simp [scanStep, h]
  · intro il ilab h hs
    simp [orphanIfOf, h, hs]
  · intro hs
    unfold orphanIfOf
    cases hc : (scanDirectives file ds).currentIf with
    | none => simp [hc]
    | some c => simp [hc, hs]
  · intro hc
    simp [orphanIfOf, hc]
  · have hsplit : ds ++ .ifChange line lab :: ts.map (fun p => .thenChange p.1 p.2) =
        (ds ++ [.ifChange line lab]) ++ ts.map (fun p => .thenChange p.1 p.2) := by
      simp
    rw [hsplit, scanDirectives]
    rw [List.foldl_append]
    have hif : (ds ++ [LintDirective.ifChange line lab]).foldl
        (scanStep file) ⟨none, false, [], []⟩ =
        scanDirectives file (ds ++ [.ifChange line lab]) := rfl
    rw [hif, scanDirectives_append]
    rw [scanStep_thenChange_run file _ line lab ts (by rfl)]
    rfl

/-- Closed instance of `C1_pairing_latch`: one `IfChange` followed by one
`ThenChange` forms exactly the expected pair with `sawThen` set. -/
theorem C1_witness :
    scanDirectives "f.ts" ([.ifChange 1 none] ++ [.thenChange 2 "b.ts"]) =
      { scanDirectives "f.ts" [.ifChange 1 none] with
          pairs := (scanDirectives "f.ts" [.ifChange 1 none]).pairs ++
            [⟨"f.ts", 1, none, "b.ts", 2⟩],
          sawThen := true } :=
  (C1_pairing_latch "f.ts" [.ifChange 1 none] 1 2 none "b.ts" []).2.1 1 none rfl

/-! ### String and path primitives

The engine uses JavaScript `String.split`, Node POSIX `path` functions and
a glob matcher.  They are embedded over `List Char`. -/

/-- JavaScript `\s` on the ASCII range (space, tab, LF, VT, FF, CR). -/
def jsSpace (c : Char) : Bool :=
  c = ' ' || c = Char.ofNat 9 || c = Char.ofNat 10 || c = Char.ofNat 11 ||
    c = Char.ofNat 12 || c = Char.ofNat 13

/-- JavaScript `String.split` on a single separator character. -/
def splitOnChar (sep : Char) : List Char → List (List Char)
  | [] => [[]]
  | c :: rest =>
      let r := splitOnChar sep rest
      if c = sep then [] :: r
      else (c :: r.headD []) :: r.tail

/-- `target.split('#')` as a list of strings. -/
def splitHash (s : String) : List String :=
  (splitOnChar '#' s.toList).map (fun l => String.mk l)

/-- Whether the first list is a prefix of the second (Boolean). -/
def listStartsWith : List Char → List Char → Bool
  | [], _ => true
  | _ :: _, [] => false
  | p :: ps, c :: cs => p = c && listStartsWith ps cs

/-- Modelled from Node's POSIX `path.isAbsolute`: nonempty and starting
with a slash. -/
def isAbsolutePath (s : String) : Bool :=
  match s.toList with
  | [] => false
  | c :: _ => c = '/'

/-- Modelled from Node's POSIX `path.dirname`: skip trailing slashes, skip
the last component, cut before its leading slash; empty result degrades to
`/` (rooted) or `.`.  (Node's `//` double-root special case is not
modelled.) -/
def dirnameStr (s : String) : String :=
  match s.toList with
  | [] => "."
  | c :: rest =>
      let rev := (c :: rest).reverse
      let afterSlashes := rev.dropWhile (fun x => x = '/')
      let afterComp := afterSlashes.dropWhile (fun x => x ≠ '/')
      let core := (afterComp.drop 1).reverse
      if core = [] then (if c = '/' then "/" else ".")
      else String.mk core

/-- Modelled from Node's POSIX path normalisation: drop empty and `.`
segments and resolve `..` against a stack (kept literally at the top level
of relative paths, dropped at the root of absolute ones). -/
def normSegs (segs : List String) (isAbs : Bool) : List String :=
  (segs.foldl (fun acc c =>
    if c = "" || c = "." then acc
    else if c = ".." then
      match acc with
      | [] => if isAbs then [] else [".."]
      | h :: t => if h = ".." then c :: h :: t else t
    else c :: acc) []).reverse

/-- Modelled from Node's POSIX `path.normalize`, preserving a trailing
slash and restoring the leading one. -/
def pathNormalize (s : String) : String :=
  if s = "" then "." else
  let l := s.toList
  let isAbs := l.head? == some '/'
  let trail := l.getLast? == some '/'
  let comps := (splitOnChar '/' l).map (fun cl => String.mk cl)
  let core := String.intercalate "/" (normSegs comps isAbs)
  if core = "" then (if isAbs then "/" else if trail then "./" else ".")
  else
    let withTrail := if trail then core ++ "/" else core
    if isAbs then "/" ++ withTrail else withTrail

/-- Modelled from Node's POSIX `path.join` on two segments: empty segments
are ignored and the joined result is normalised (`.` when both empty). -/
def pathJoin (a b : String) : String :=
  let parts := [a, b].filter (fun p => p ≠ "")
  match parts with
  | [] => "."
  | _ => pathNormalize (String.intercalate "/" parts)

/-- `ThenChange` target resolution of `lintDiff` (src/LintEngine.ts lines
316-321 and 217-223): split the target at `#`, use the path part as-is when
absolute, otherwise join it to the dirname of the pair's file. -/
def resolveTarget (file target : String) : String :=
  let targetName := (splitHash target).headD ""
  if isAbsolutePath targetName then targetName
  else pathJoin (dirnameStr file) targetName

/-- C3 (code bug): a `ThenChange` target of the form `#label` (empty path
part) does not resolve to the pair's own file as the spec and the
repository's own test suite state; the code computes
`path.join(dirname(file), "")`, which is the containing directory.  At pair
file `a/file1.ts` with target `#label1` the code yields `a`, not
`a/file1.ts`. -/
theorem C3_empty_target_resolution :
    resolveTarget "a/file1.ts" "#label1" = "a" ∧
    resolveTarget "a/file1.ts" "#label1" ≠ "a/file1.ts" := by
  refine ⟨by decide, by decide⟩

/-! ### Diff pre-filter (`src/DiffParser.ts` lines 136-147) -/

/-- The `[^ ]*\/`-search part of the header regexes: scan forward through
non-space characters looking for a slash. -/
def scanSlash : List Char → Bool
  | [] => false
  | c :: rest => if c = '/' then true else if c = ' ' then false else scanSlash rest

/-- The test `^(---|+++) [^ ]+\/` applied to the text after the marker:
at least one non-space character followed by a slash. -/
def validHeaderPath : List Char → Bool
  | [] => false
  | c :: rest => c ≠ ' ' && scanSlash rest

/-- The line filter of `parseChangedLines` (src/DiffParser.ts lines
138-146): drop `diff ` headers and `--- `/`+++ ` lines whose tail fails the
`[^ ]+\/` test; keep everything else. -/
def keepDiffLine (l : List Char) : Bool :=
  if listStartsWith "diff ".toList l then false
  else if listStartsWith "--- ".toList l && !validHeaderPath (l.drop 4) then false
  else if listStartsWith "+++ ".toList l && !validHeaderPath (l.drop 4) then false
  else true

/-- The sanitisation pass over the split diff lines. -/
def sanitizeDiffLines (ls : List (List Char)) : List (List Char) :=
  ls.filter keepDiffLine

/-- The keep-condition on a header tail as the claim words it: a
single-character prefix followed by `/`, or `/dev/null`.  Stated from the
claim, for comparison with `validHeaderPath`. -/
def claimHeaderKeep (rest : List Char) : Bool :=
  (match rest with
   | _ :: c :: _ => c = '/'
   | _ => false) || listStartsWith "/dev/null".toList rest

/-- The whole line filter as the claim words it. -/
def claimKeepLine (l : List Char) : Bool :=
  if listStartsWith "diff ".toList l then false
  else if listStartsWith "--- ".toList l && !claimHeaderKeep (l.drop 4) then false
  else if listStartsWith "+++ ".toList l && !claimHeaderKeep (l.drop 4) then false
  else true

/-- C6 is refuted at this input: the code keeps a `--- ` header whose path
has a multi-character prefix (`src/`), which is neither a single-character
prefix followed by `/` nor `/dev/null`, so the claim would drop it. -/
theorem C6_counterexample :
    keepDiffLine ("--- src/foo.c".toList) = true ∧
    claimKeepLine ("--- src/foo.c".toList) = false := by
  refine ⟨by decide, by decide⟩

theorem scanSlash_cons (c : Char) (rest : List Char) :
    scanSlash (c :: rest) =
      if c = '/' then true else if c = ' ' then false else scanSlash rest := rfl

theorem scanSlash_iff (l : List Char) :
    scanSlash l = true ↔
      ∃ pre post, l = pre ++ '/' :: post ∧ ∀ a ∈ pre, a ≠ ' ' := by
  induction l with
  | nil =>
      constructor
      · intro h
        exact absurd h (by decide)
      · rintro ⟨pre, post, heq, -⟩
        simp at heq
  | cons c rest ih =>
      rw [scanSlash_cons]
      by_cases hc : c = '/'
      · subst hc
        rw [if_pos rfl]
        constructor
        · intro _
          exact ⟨[], rest, rfl, by simp⟩
        · intro _
          rfl
      · rw [if_neg hc]
        by_cases hs : c = ' '
        · subst hs
          rw [if_pos rfl]
          constructor
          · intro h
            exact absurd h (by decide)
          · rintro ⟨pre, post, heq, hpre⟩
            cases pre with
            | nil =>
                rw [List.nil_append] at heq
                injection heq with h1 h2
                exact absurd h1 (by decide)
            | cons a pre2 =>
                rw [List.cons_append] at heq
                injection heq with h1 h2
                exact absurd h1.symm (hpre a (List.mem_cons_self a pre2))
        · rw [if_neg hs, ih]
          constructor
          · rintro ⟨pre, post, rfl, hpre⟩
            refine ⟨c :: pre, post, rfl, ?_⟩
            intro a ha
            rcases List.mem_cons.1 ha with rfl | ha2
            · exact hs
            · exact hpre a ha2
          · rintro ⟨pre, post, heq, hpre⟩
            cases pre with
            | nil =>
                rw [List.nil_append] at heq
                injection heq with h1 h2
                exact absurd h1 hc
            | cons a pre2 =>
                rw [List.cons_append] at heq
                injection heq with h1 h2
                exact ⟨pre2, post, h2, fun x hx => hpre x (List.mem_cons_of_mem a hx)⟩

theorem validHeaderPath_iff (l : List Char) :
    validHeaderPath l = true ↔
      ∃ pre post, l = pre ++ '/' :: post ∧ pre ≠ [] ∧ ∀ a ∈ pre, a ≠ ' ' := by
  cases l with
  | nil =>
      constructor
      · intro h
        exact absurd h (by decide)
      · rintro ⟨pre, post, heq, -, -⟩
        simp at heq
  | cons c rest =>
      have hdef : validHeaderPath (c :: rest) =
          (decide (c ≠ ' ') && scanSlash rest) := rfl
      rw [hdef, Bool.and_eq_true, decide_eq_true_eq, scanSlash_iff]
      constructor
      · rintro ⟨hc, pre, post, rfl, hpre⟩
        refine ⟨c :: pre, post, rfl, by simp, ?_⟩
        intro a ha
        rcases List.mem_cons.1 ha with rfl | ha2
        · exact hc
        · exact hpre a ha2
      · rintro ⟨pre, post, heq, hne, hpre⟩
        cases pre with
        | nil => exact absurd rfl hne
        | cons a pre2 =>
            rw [List.cons_append] at heq
            injection heq with h1 h2
            subst h1
            refine ⟨hpre c (List.mem_cons_self c pre2), pre2, post, h2, ?_⟩
            exact fun x hx => hpre x (List.mem_cons_of_mem c hx)

/-- C6 amended: the pre-filter drops every line starting with `diff `, and
drops a line starting with `--- ` or `+++ ` exactly when the text after the
marker does not begin with a (possibly multi-character) run of non-space
characters followed by `/`; all other lines pass through.  Single-character
prefixes such as `a/`, `b/`, `c/`, `w/` and the path `/dev/null` are
special cases of that run-plus-slash shape. -/
theorem C6_amended_filter :
    ∀ l : List Char,
      (keepDiffLine l = true ↔
        listStartsWith "diff ".toList l = false ∧
        (listStartsWith "--- ".toList l = true →
          ∃ pre post, l.drop 4 = pre ++ '/' :: post ∧ pre ≠ [] ∧
            ∀ a ∈ pre, a ≠ ' ') ∧
        (listStartsWith "+++ ".toList l = true →
          ∃ pre post, l.drop 4 = pre ++ '/' :: post ∧ pre ≠ [] ∧
            ∀ a ∈ pre, a ≠ ' ')) ∧
      (l ∈ sanitizeDiffLines [l] ↔ keepDiffLine l = true) := by
  intro l
  refine ⟨?_, by simp [sanitizeDiffLines]⟩
  simp only [← validHeaderPath_iff]
  unfold keepDiffLine
  cases hA : listStartsWith "diff ".toList l with
  | true => simp
  | false =>
      cases hV : validHeaderPath (l.drop 4) with
      | true => simp
      | false =>
          cases hB : listStartsWith "--- ".toList l with
          | true => simp
          | false =>
              cases hC : listStartsWith "+++ ".toList l with
              | true => simp
              | false => simp

/-! ### Directive extraction (`src/DirectiveParser.ts`)

The regular expressions of the parser are hand-compiled to executable
matchers over `List Char` with regex search semantics (try every start
position, leftmost match wins). -/

/-- JavaScript word character (`\w`, and the `\b` boundary test). -/
def isWordChar (c : Char) : Bool :=
  ('a' ≤ c && c ≤ 'z') || ('A' ≤ c && c ≤ 'Z') || ('0' ≤ c && c ≤ '9') || c = '_'

/-- Single or double quote. -/
def quoteChar (c : Char) : Bool := c = '"' || c = Char.ofNat 39

/-- Consume an exact literal prefix, returning the remainder. -/
def dropLit : List Char → List Char → Option (List Char)
  | [], l => some l
  | _ :: _, [] => none
  | p :: ps, c :: cs => if p = c then dropLit ps cs else none

/-- `\s*`. -/
def skipSpacesJs (l : List Char) : List Char := l.dropWhile jsSpace

/-- Regex search: try the position matcher at every suffix, leftmost first. -/
def firstMatch {α : Type} (f : List Char → Option α) : List Char → Option α
  | [] => f []
  | c :: rest =>
      match f (c :: rest) with
      | some a => some a
      | none => firstMatch f rest

/-- `['"]([^'"]+)['"]`: an opening quote, a non-empty run of non-quote
characters (the capture), a closing quote of either kind. -/
def takeQuoted (l : List Char) : Option (List Char × List Char) :=
  match l with
  | [] => none
  | q :: rest =>
      if quoteChar q then
        let body := rest.takeWhile (fun c => !quoteChar c)
        match rest.dropWhile (fun c => !quoteChar c) with
        | _ :: rest3 => if body = [] then none else some (body, rest3)
        | [] => none
      else none

/-- `LINT\.IfChange\s*\(\s*['"]([^'"]+)['"]\s*\)` at one position. -/
def ifChangeLabelAt (l : List Char) : Option (List Char) :=
  (dropLit "LINT.IfChange".toList l).bind fun r1 =>
  match skipSpacesJs r1 with
  | '(' :: r3 =>
      (takeQuoted (skipSpacesJs r3)).bind fun br =>
      match skipSpacesJs br.2 with
      | ')' :: _ => some br.1
      | _ => none
  | _ => none

/-- `LINT\.IfChange\b(?!\s*\()` at one position. -/
def ifChangeBareAt (l : List Char) : Option Unit :=
  (dropLit "LINT.IfChange".toList l).bind fun r1 =>
  let boundary := match r1 with
    | [] => true
    | c :: _ => !isWordChar c
  let paren := match skipSpacesJs r1 with
    | '(' :: _ => true
    | _ => false
  if boundary && !paren then some () else none

/-- `thenChangeRegex = /LINT\.ThenChange\(['"]([^'"]+)['"]\)/` (no
whitespace slack) at one position. -/
def thenChangeStrictAt (l : List Char) : Option (List Char) :=
  (dropLit "LINT.ThenChange(".toList l).bind fun r1 =>
  (takeQuoted r1).bind fun br =>
  match br.2 with
  | ')' :: _ => some br.1
  | _ => none

/-- `labelRegex = /LINT\.Label\(['"]([^'"]+)['"]\)/` at one position. -/
def labelAt (l : List Char) : Option (List Char) :=
  (dropLit "LINT.Label(".toList l).bind fun r1 =>
  (takeQuoted r1).bind fun br =>
  match br.2 with
  | ')' :: _ => some br.1
  | _ => none

/-- `endLabelRegex = /LINT\.EndLabel/` : plain substring test. -/
def endLabelTest (l : List Char) : Bool :=
  (firstMatch (fun s => dropLit "LINT.EndLabel".toList s) l).isSome

/-- `/^\s*LINT\.ThenChange\b/`. -/
def thenStartTest (l : List Char) : Bool :=
  match dropLit "LINT.ThenChange".toList (skipSpacesJs l) with
  | some [] => true
  | some (c :: _) => !isWordChar c
  | none => false

/-- `/^\s*LINT\.ThenChange\s*\(\s*\[([^\]]*)\]\s*\)/` (anchored array form
inside `extractDirectives`). -/
def extractArrayAnchor (l : List Char) : Option (List Char) :=
  (dropLit "LINT.ThenChange".toList (skipSpacesJs l)).bind fun r1 =>
  match skipSpacesJs r1 with
  | '(' :: r2 =>
      match skipSpacesJs r2 with
      | '[' :: r3 =>
          let body := r3.takeWhile (fun c => c ≠ ']')
          match r3.dropWhile (fun c => c ≠ ']') with
          | _ :: r4 =>
              match skipSpacesJs r4 with
              | ')' :: _ => some body
              | _ => none
          | [] => none
      | _ => none
  | _ => none

/-- `/^\s*LINT\.ThenChange\(/` (fallback trigger). -/
def thenFallbackTest (l : List Char) : Bool :=
  (dropLit "LINT.ThenChange(".toList (skipSpacesJs l)).isSome

/-- `/LINT\.ThenChange\(([^)]*)\)/` at one position (fallback capture). -/
def thenFallbackAt (l : List Char) : Option (List Char) :=
  (dropLit "LINT.ThenChange(".toList l).bind fun r1 =>
  let body := r1.takeWhile (fun c => c ≠ ')')
  match r1.dropWhile (fun c => c ≠ ')') with
  | _ :: _ => some body
  | [] => none

/-- `/^\s*LINT\./`. -/
def lintStartTest (l : List Char) : Bool :=
  (dropLit "LINT.".toList (skipSpacesJs l)).isSome

/-- `/^\s*LINT\.ThenChange/` (no boundary). -/
def lintThenStartTest (l : List Char) : Bool :=
  (dropLit "LINT.ThenChange".toList (skipSpacesJs l)).isSome

/-- `/^\s*LINT\.IfChange/`. -/
def lintIfStartTest (l : List Char) : Bool :=
  (dropLit "LINT.IfChange".toList (skipSpacesJs l)).isSome

/-- `/^\s*LINT\.Label/`. -/
def lintLabelStartTest (l : List Char) : Bool :=
  (dropLit "LINT.Label".toList (skipSpacesJs l)).isSome

/-- `/^\s*LINT\.([A-Za-z0-9_]+)/` capture. -/
def lintNameCapture (l : List Char) : Option (List Char) :=
  (dropLit "LINT.".toList (skipSpacesJs l)).bind fun r =>
  let name := r.takeWhile isWordChar
  if name = [] then none else some name

/-- JavaScript `String.trim` (ASCII whitespace). -/
def trimJs (l : List Char) : List Char :=
  ((l.dropWhile jsSpace).reverse.dropWhile jsSpace).reverse

/-- `item.replace(/^['"]|['"]$/g, '')`: strip one leading and one trailing
quote. -/
def stripQuotesEnds (l : List Char) : List Char :=
  let l1 := match l with
    | c :: rest => if quoteChar c then rest else c :: rest
    | [] => []
  match l1.reverse with
  | c :: rest => if quoteChar c then rest.reverse else l1
  | [] => l1

/-- Array body handling: split at commas, trim, drop empties. -/
def splitArrayItems (body : List Char) : List (List Char) :=
  ((splitOnChar ',' body).map trimJs).filter (fun x => x ≠ [])

/-- `/\(\s*\[([^\]]*?)\]\s*,?\s*\)/` at one position (the multi-line array
form inside `parseFileDirectives`). -/
def arrayParenAt (l : List Char) : Option (List Char) :=
  match l with
  | '(' :: r1 =>
      match skipSpacesJs r1 with
      | '[' :: r2 =>
          let body := r2.takeWhile (fun c => c ≠ ']')
          match r2.dropWhile (fun c => c ≠ ']') with
          | _ :: r3 =>
              let r4 := skipSpacesJs r3
              let r5 := match r4 with
                | ',' :: t => skipSpacesJs t
                | _ => r4
              match r5 with
              | ')' :: _ => some body
              | _ => none
          | [] => none
      | _ => none
  | _ => none

/-- `/LINT\.ThenChange\s*\(\s*['"]([^'"]+)['"]\s*\)/` at one position (the
flexible single-target form inside `parseFileDirectives`). -/
def thenChangeFlexAt (l : List Char) : Option (List Char) :=
  (dropLit "LINT.ThenChange".toList l).bind fun r1 =>
  match skipSpacesJs r1 with
  | '(' :: r2 =>
      (takeQuoted (skipSpacesJs r2)).bind fun br =>
      match skipSpacesJs br.2 with
      | ')' :: _ => some br.1
      | _ => none
  | _ => none

/-- Diagnostic for a malformed `LINT.ThenChange` line. -/
def malformedThenMsg (fp : String) (n : Nat) (trimmed : String) : String :=
  "Malformed LINT.ThenChange directive at " ++ fp ++ ":" ++ toString n ++
    ": expected LINT.ThenChange(\"target\"), saw \x27" ++ trimmed ++ "\x27"

/-- Diagnostic for a malformed `LINT.IfChange` line. -/
def malformedIfMsg (fp : String) (n : Nat) (trimmed : String) : String :=
  "Malformed LINT.IfChange directive at " ++ fp ++ ":" ++ toString n ++
    ": expected LINT.IfChange or LINT.IfChange(\"label\"), saw \x27" ++
    trimmed ++ "\x27"

/-- Diagnostic for a malformed `LINT.Label` line. -/
def malformedLabelMsg (fp : String) (n : Nat) (trimmed : String) : String :=
  "Malformed LINT.Label directive at " ++ fp ++ ":" ++ toString n ++
    ": expected LINT.Label(\"name\"), saw \x27" ++ trimmed ++ "\x27"

/-- Diagnostic for an unknown `LINT.<Identifier>` directive. -/
def unknownLintMsg (fp : String) (n : Nat) (name trimmed : String) : String :=
  "Unknown LINT directive \x27" ++ name ++ "\x27 at " ++ fp ++ ":" ++
    toString n ++ ": \x27" ++ trimmed ++ "\x27"

/-- The matcher cascade of `extractDirectives` (src/DirectiveParser.ts
lines 130-174): the produced directives in push order, plus the `matched`
flag. -/
def extractParts (text : List Char) (lineNum : Nat) :
    List LintDirective × Bool :=
  let ifPart : List LintDirective × Bool :=
    match firstMatch ifChangeLabelAt text with
    | some lab => ([.ifChange lineNum (some (String.mk lab))], true)
    | none =>
        if (firstMatch ifChangeBareAt text).isSome then
          ([.ifChange lineNum none], true)
        else ([], false)
  let thenPart : List LintDirective × Bool :=
    match extractArrayAnchor text with
    | some items =>
        ((splitArrayItems items).map
          (fun item => .thenChange lineNum (String.mk (stripQuotesEnds item))),
         true)
    | none =>
        match firstMatch thenChangeStrictAt text with
        | some body => ([.thenChange lineNum (String.mk body)], true)
        | none =>
            if thenFallbackTest text then
              match firstMatch thenFallbackAt text with
              | some raw =>
                  ([.thenChange lineNum
                      (String.mk (stripQuotesEnds (trimJs raw)))], true)
              | none => ([], false)
            else ([], false)
  let labelPart : List LintDirective × Bool :=
    match firstMatch labelAt text with
    | some name => ([.labelDir lineNum (String.mk name)], true)
    | none => ([], false)
  let endPart : List LintDirective × Bool :=
    if endLabelTest text then ([.endLabel lineNum], true) else ([], false)
  (ifPart.1 ++ thenPart.1 ++ labelPart.1 ++ endPart.1,
   ifPart.2 || thenPart.2 || labelPart.2 || endPart.2)

/-- `extractDirectives` (src/DirectiveParser.ts lines 124-199): run the
matcher cascade; when nothing matched but the line starts (after
whitespace) with `LINT.`, fail with the malformed/unknown diagnostic. -/
def extractDirectives (text : List Char) (lineNum : Nat) (filePath : String) :
    Except String (List LintDirective) :=
  let p := extractParts text lineNum
  if !p.2 && lintStartTest text then
    if lintThenStartTest text then
      .error (malformedThenMsg filePath lineNum (String.mk (trimJs text)))
    else if lintIfStartTest text then
      .error (malformedIfMsg filePath lineNum (String.mk (trimJs text)))
    else if lintLabelStartTest text then
      .error (malformedLabelMsg filePath lineNum (String.mk (trimJs text)))
    else
      let name := match lintNameCapture text with
        | some nm => String.mk nm
        | none => "LINT"
      .error (unknownLintMsg filePath lineNum name (String.mk (trimJs text)))
  else
    .ok p.1

/-- The `ThenChange`-block parse of `parseFileDirectives` (lines 92-109):
try the array literal, else the flexible single-target literal, else yield
nothing. -/
def thenBlockDirectives (content : List Char) (lineNum : Nat) :
    List LintDirective :=
  match firstMatch arrayParenAt content with
  | some items =>
      (splitArrayItems items).map
        (fun item => .thenChange lineNum (String.mk (stripQuotesEnds item)))
  | none =>
      match firstMatch thenChangeFlexAt content with
      | some body => [.thenChange lineNum (String.mk body)]
      | none => []

/-- `directiveLines.join(' ')`. -/
def joinSpace (ls : List String) : String := String.intercalate " " ls

/-- The per-comment loop of `parseFileDirectives` (src/DirectiveParser.ts
lines 74-116).  The inner joining loop (lines 84-90: collect following
comment lines until one contains `)`) is expressed structurally as a
collecting mode carrying the block's start line and the lines collected so
far in reverse; a line matching `^\s*LINT\.ThenChange\b` opens such a
block, whose joined text is parsed by `thenBlockDirectives` (silently
yielding nothing when unmatchable); every other line goes through
`extractDirectives`, whose failure aborts the whole parse. -/
def scanCommentLines (filePath : String) :
    Option (Nat × List String) → Nat → List String →
      Except String (List LintDirective)
  | none, _, [] => .ok []
  | some st, _, [] =>
      .ok (thenBlockDirectives (joinSpace st.2.reverse).toList st.1)
  | none, lineNum, text :: rest =>
      if thenStartTest text.toList then
        if text.toList.contains ')' then
          (scanCommentLines filePath none (lineNum + 1) rest).map
            (fun ds =>
              thenBlockDirectives (joinSpace [text]).toList lineNum ++ ds)
        else
          scanCommentLines filePath (some (lineNum, [text])) (lineNum + 1) rest
      else
        match extractDirectives text.toList lineNum filePath with
        | .error e => .error e
        | .ok ds =>
            (scanCommentLines filePath none (lineNum + 1) rest).map
              (fun more => ds ++ more)
  | some st, lineNum, text :: rest =>
      if text.toList.contains ')' then
        (scanCommentLines filePath none (lineNum + 1) rest).map
          (fun ds =>
            thenBlockDirectives
              (joinSpace (text :: st.2).reverse).toList st.1 ++ ds)
      else
        scanCommentLines filePath (some (st.1, text :: st.2)) (lineNum + 1) rest

/-- `comment.content.split(/\\r?\\n/)` over characters: split at `\\n`,
consuming one immediately preceding `\\r`; a lone `\\r` is an ordinary
character. -/
def splitLinesChars : List Char → List (List Char)
  | [] => [[]]
  | [c] =>
      if c = Char.ofNat 10 then [[], []]
      else [[c]]
  | c :: d :: rest2 =>
      if c = Char.ofNat 10 then [] :: splitLinesChars (d :: rest2)
      else if c = Char.ofNat 13 && d = Char.ofNat 10 then [] :: splitLinesChars rest2
      else
        let r := splitLinesChars (d :: rest2)
        (c :: r.headD []) :: r.tail

/-- String version of the line split. -/
def splitLinesJs (s : String) : List String :=
  (splitLinesChars s.toList).map (fun l => String.mk l)

/-- One comment found by the (external, modelled-by-output) comment
extractor: its starting line number and interior text. -/
structure CommentBlock where
  startLine : Nat
  content : String
deriving DecidableEq, Repr

/-- The outer comment loop of `parseFileDirectives` (lines 71-117). -/
def parseComments (filePath : String) :
    List CommentBlock → Except String (List LintDirective)
  | [] => .ok []
  | c :: rest =>
      match scanCommentLines filePath none c.startLine (splitLinesJs c.content) with
      | .error e => .error e
      | .ok ds => (parseComments filePath rest).map (fun more => ds ++ more)

/-- Node `path.extname` (POSIX): the suffix of the basename from its last
dot; empty when the dot is leading or absent.  Trailing slashes are
skipped. -/
def extnameStr (s : String) : String :=
  let noTrail := s.toList.reverse.dropWhile (fun c => c = '/')
  let revBn := noTrail.takeWhile (fun c => c ≠ '/')
  let beforeDot := revBn.takeWhile (fun c => c ≠ '.')
  match revBn.dropWhile (fun c => c ≠ '.') with
  | [] => ""
  | _ :: restRev =>
      if restRev = [] then ""
      else String.mk ('.' :: beforeDot.reverse)

/-- First-occurrence string replacement, as JavaScript
`String.replace(string, string)`; an empty pattern matches at index 0. -/
def replaceFirstAux (pat rep : List Char) : List Char → List Char
  | [] => []
  | c :: rest =>
      if listStartsWith pat (c :: rest) then rep ++ (c :: rest).drop pat.length
      else c :: replaceFirstAux pat rep rest

/-- JavaScript `l.replace(pat, rep)` for plain strings. -/
def replaceFirst (l pat rep : List Char) : List Char :=
  if pat = [] then rep ++ l else replaceFirstAux pat rep l

/-- The fallback filename of lines 53-61: `.bzl` (case-insensitive)
becomes `.py`, anything else has its extname replaced by `.js` (JavaScript
`replace` replaces the first occurrence; an empty extname prepends). -/
def fallbackName (filePath : String) : String :=
  let l := filePath.toList
  if listStartsWith (".bzl".toList.reverse) ((l.map Char.toLower).reverse) then
    String.mk ((l.take (l.length - 4)) ++ ".py".toList)
  else
    String.mk (replaceFirst l (extnameStr filePath).toList ".js".toList)

/-- `parseFileDirectives` (src/DirectiveParser.ts lines 27-119).  The
filesystem read and the external `multilang-extract-comments` call are
modelled as parameters: `read` yields the file content or an error code,
`extract` yields the comment blocks for a given (filename, content) or
`none` when the extractor throws.  An `EISDIR` read error yields the empty
list, any other read error propagates; an extractor failure retries with
the fallback filename and finally yields the empty list. -/
def parseFileDirectives
    (read : String → Except String String)
    (extract : String → String → Option (List CommentBlock))
    (filePath : String) : Except String (List LintDirective) :=
  match read filePath with
  | .error code => if code = "EISDIR" then .ok [] else .error code
  | .ok content =>
      match extract filePath content with
      | some comments => parseComments filePath comments
      | none =>
          match extract (fallbackName filePath) content with
          | some comments => parseComments filePath comments
          | none => .ok []

/-- C4 is refuted at this input: the comment line `LINT.ThenChange(foo)`
matches the block-start pattern, already contains `)`, and its joined text
matches neither the array form nor the quoted single-target form; yet
`parseFileDirectives` succeeds with an empty directive list instead of
failing with a malformed-directive diagnostic. -/
theorem C4_counterexample :
    parseFileDirectives (fun _ => .ok "// LINT.ThenChange(foo)")
      (fun _ _ => some [⟨1, "LINT.ThenChange(foo)"⟩]) "f.ts" = .ok [] := by
  rfl

/-- C4 amended: a line matching `^\s*LINT\.ThenChange\b` opens a block that
is joined with following comment lines until one contains `)`; when the
joined text matches neither the array form nor the quoted single-target
form the block is silently skipped — no directive, no diagnostic.  The
fail-fast malformed-directive failure, whose message carries the file path
and line number, applies to the lines handled by `extractDirectives`:
malformed `LINT.IfChange(...)`, malformed `LINT.Label(...)`, any unknown
`LINT.<Identifier>`, and `LINT.ThenChange` forms that escape the
block-start pattern. -/
theorem C4_amended_malformed_handling :
    ∀ (filePath text : String) (lineNum bn : Nat) (acc rest : List String),
      (thenStartTest text.toList = true →
       text.toList.contains ')' = true →
       firstMatch arrayParenAt (joinSpace [text]).toList = none →
       firstMatch thenChangeFlexAt (joinSpace [text]).toList = none →
       scanCommentLines filePath none lineNum (text :: rest) =
         scanCommentLines filePath none (lineNum + 1) rest) ∧
      (thenStartTest text.toList = true →
       text.toList.contains ')' = false →
       scanCommentLines filePath none lineNum (text :: rest) =
         scanCommentLines filePath (some (lineNum, [text])) (lineNum + 1) rest) ∧
      (text.toList.contains ')' = false →
       scanCommentLines filePath (some (bn, acc)) lineNum (text :: rest) =
         scanCommentLines filePath (some (bn, text :: acc)) (lineNum + 1) rest) ∧
      (text.toList.contains ')' = true →
       firstMatch arrayParenAt (joinSpace (text :: acc).reverse).toList = none →
       firstMatch thenChangeFlexAt (joinSpace (text :: acc).reverse).toList = none →
       scanCommentLines filePath (some (bn, acc)) lineNum (text :: rest) =
         scanCommentLines filePath none (lineNum + 1) rest) ∧
      ((extractParts text.toList lineNum).2 = false →
       lintStartTest text.toList = true →
       extractDirectives text.toList lineNum filePath =
         (if lintThenStartTest text.toList then
            .error (malformedThenMsg filePath lineNum (String.mk (trimJs text.toList)))
          else if lintIfStartTest text.toList then
            .error (malformedIfMsg filePath lineNum (String.mk (trimJs text.toList)))
          else if lintLabelStartTest text.toList then
            .error (malformedLabelMsg filePath lineNum (String.mk (trimJs text.toList)))
          else
            .error (unknownLintMsg filePath lineNum
              (match lintNameCapture text.toList with
               | some nm => String.mk nm
               | none => "LINT")
              (String.mk (trimJs text.toList))))) := by
  intro filePath text lineNum bn acc rest
  refine ⟨?_, ?_, ?_, ?_, ?_⟩
  · intro hstart hclose harr hflex
    rw [scanCommentLines, if_pos hstart, if_pos hclose]
    rw [show thenBlockDirectives (joinSpace [text]).toList lineNum = [] from by
      rw [thenBlockDirectives, harr, hflex]]
    cases h : scanCommentLines filePath none (lineNum + 1) rest <;>
      simp [Except.map, h]
  · intro hstart hclose
    rw [scanCommentLines, if_pos hstart,
      if_neg (fun h => by rw [hclose] at h; cases h)]
  · intro hclose
    rw [scanCommentLines, if_neg (fun h => by rw [hclose] at h; cases h)]
  · intro hclose harr hflex
    rw [scanCommentLines, if_pos hclose]
    rw [show thenBlockDirectives (joinSpace (text :: acc).reverse).toList bn = []
      from by rw [thenBlockDirectives, harr, hflex]]
    cases h : scanCommentLines filePath none (lineNum + 1) rest <;>
      simp [Except.map, h]
  · intro hp hstart
    rw [extractDirectives]
    simp only [hp, hstart, Bool.not_false, Bool.and_self, if_true]

/-- Closed instance of `C4_amended_malformed_handling`: the unmatchable
block `LINT.ThenChange(foo)` is skipped, and `LINT.IfChange()` fails with
the malformed-IfChange diagnostic naming path `g.ts` and line 3. -/
theorem C4_amended_witness :
    scanCommentLines "f.ts" none 1 ["LINT.ThenChange(foo)", "x"] =
      scanCommentLines "f.ts" none 2 ["x"] ∧
    extractDirectives "LINT.IfChange()".toList 3 "g.ts" =
      .error (malformedIfMsg "g.ts" 3 "LINT.IfChange()") := by
  constructor
  · exact (C4_amended_malformed_handling "f.ts" "LINT.ThenChange(foo)" 1 0 []
      ["x"]).1 rfl rfl rfl rfl
  · exact ((C4_amended_malformed_handling "g.ts" "LINT.IfChange()" 3 0 []
      []).2.2.2.2 rfl rfl).trans rfl

/-- C8: a read that fails with the directory error code yields an empty
directive list silently, and a read failing with any other code (for
example a permission failure) propagates the error to the caller. -/
theorem C8_directory_read_silent
    (read : String → Except String String)
    (extract : String → String → Option (List CommentBlock))
    (filePath : String) :
    (read filePath = .error "EISDIR" →
      parseFileDirectives read extract filePath = .ok []) ∧
    (∀ code, read filePath = .error code → code ≠ "EISDIR" →
      parseFileDirectives read extract filePath = .error code) := by
  constructor
  · intro h
    rw [parseFileDirectives, h]
    rfl
  · intro code h hne
    rw [parseFileDirectives, h]
    simp [hne]

/-- Closed instance of `C8_directory_read_silent`: an `EISDIR` read yields
`[]`, an `EACCES` read propagates. -/
theorem C8_witness :
    parseFileDirectives (fun _ => .error "EISDIR") (fun _ _ => none) "d" =
      .ok [] ∧
    parseFileDirectives (fun _ => .error "EACCES") (fun _ _ => none) "f" =
      .error "EACCES" :=
  ⟨(C8_directory_read_silent (fun _ => .error "EISDIR") (fun _ _ => none) "d").1 rfl,
   (C8_directory_read_silent (fun _ => .error "EACCES") (fun _ _ => none) "f").2
     "EACCES" rfl (by decide)⟩

/-! ### The lint engine (`src/LintEngine.ts`, `lintDiff`)

`lintDiff` is embedded as a pure function of a `LintEnv`.  Each reporting
loop is expressed as an accumulation `accPairs` of per-item
`(error count, diagnostic lines)` contributions, mirroring the source's
paired `errors++` / `console.log`; verbose-only traces are not modelled. -/

/-- The glob matcher of `lintDiff` (lines 59-74): `*` is any run, `?` any
single character, everything else literal; anchored at both ends. -/
def globMatch : List Char → List Char → Bool
  | [], [] => true
  | [], _ :: _ => false
  | '*' :: ps, t =>
      globMatch ps t ||
        (match t with
         | [] => false
         | _ :: ts => globMatch ('*' :: ps) ts)
  | '?' :: ps, t =>
      (match t with
       | [] => false
       | _ :: ts => globMatch ps ts)
  | p :: ps, t =>
      (match t with
       | [] => false
       | c :: ts => p = c && globMatch ps ts)
termination_by p t => (p.length, t.length)

/-- A compiled ignore-list entry (lines 76-80): the part before the first
`#` and the optional label after it. -/
structure IgnorePattern where
  targetName : String
  label : Option String
deriving DecidableEq, Repr

/-- `item.split('#')` into the pattern (lines 77-80). -/
def mkIgnorePattern (item : String) : IgnorePattern :=
  let parts := splitHash item
  { targetName := parts.headD "", label := parts[1]? }

/-- JavaScript truthiness of an optional string: `undefined` and `""` are
falsy. -/
def labelFalsy : Option String → Bool
  | none => true
  | some s => s = ""

/-- Truthiness of the label part of a split target. -/
def labelTruthy : Option String → Bool
  | none => false
  | some s => !(s = "")

/-- `shouldIgnore` (lines 81-87). -/
def shouldIgnore (pats : List IgnorePattern) (target : String) : Bool :=
  let parts := splitHash target
  pats.any fun p =>
    globMatch p.targetName.toList (parts.headD "").toList &&
      (labelFalsy p.label || p.label == parts[1]?)

/-- `toLowerCase` over the character list. -/
def toLowerStr (s : String) : String := String.mk (s.toList.map Char.toLower)

/-- `isCodeFile` (lines 37-44): extensions `.md`/`.markdown` are not code. -/
def isCodeFile (file : String) : Bool :=
  let ext := toLowerStr (extnameStr file)
  !(ext == ".md" || ext == ".markdown")

/-- Modelled from Node's POSIX `path.basename`: last component, ignoring
trailing slashes. -/
def basenameStr (s : String) : String :=
  let noTrail := s.toList.reverse.dropWhile (fun c => c = '/')
  String.mk (noTrail.takeWhile (fun c => c ≠ '/')).reverse

/-- Per-file changed-line sets (`FileChanges`), the JavaScript `Set`
modelled as an insertion-ordered duplicate-free list. -/
structure FileChanges where
  addedLines : List Nat
  removedLines : List Nat
deriving DecidableEq, Repr

/-- The environment `lintDiff` runs against: the ordered
`parseChangedLines` map, the per-file parse results delivered by the worker
pool, and the `fs.access` probe.  Worker completion order is abstracted:
files are processed in list order, fixing one admissible interleaving of
the diagnostics. -/
structure LintEnv where
  changes : List (String × FileChanges)
  parse : String → Except String (List LintDirective)
  fileAccess : String → Bool

/-- `Map.get` on the ordered association list. -/
def lookupChanges (m : List (String × FileChanges)) (k : String) :
    Option FileChanges :=
  (m.find? (fun e => e.1 == k)).map (fun e => e.2)

/-- An orphan `ThenChange` record of Step 1. -/
structure OrphanThen where
  file : String
  line : Nat
  target : String
deriving DecidableEq, Repr

/-- Diagnostic texts of the engine (console.log lines counted as errors). -/
def dupLabelMsg (filePath : String) (line : Nat) (name : String) : String :=
  "[ifttt] " ++ filePath ++ ":" ++ toString line ++
    " -> duplicate directive label \x27" ++ name ++ "\x27"

/-- The orphan-ThenChange diagnostic of lines 155-157. -/
def orphanThenMsg (file : String) (line : Nat) (target : String) : String :=
  "[ifttt] " ++ file ++ ":" ++ toString line ++
    " -> unexpected ThenChange \x27" ++ target ++
    "\x27 without preceding IfChange"

/-- The orphan-IfChange diagnostic of lines 175-178. -/
def orphanIfMsg (file : String) (line : Nat) (lab : Option String) : String :=
  let lbl := match lab with
    | some s => if s = "" then "" else "(\x27" ++ s ++ "\x27)"
    | none => ""
  "[ifttt] " ++ file ++ ":" ++ toString line ++
    " -> missing ThenChange after IfChange" ++ lbl

/-- The Step-2 diagnostic of lines 204-207 for a pairless `ThenChange`. -/
def notChangedStep2Msg (file : String) (line : Nat)
    (target targetFile : String) : String :=
  "[ifttt] " ++ file ++ ":" ++ toString line ++ " -> ThenChange \x27" ++
    target ++ "\x27 (line " ++ toString line ++ "): target file \x27" ++
    targetFile ++ "\x27 not changed."

/-- `ifContext` (lines 325-327), with the label included when truthy. -/
def ifContextOf (p : PairDirective) : String :=
  match p.ifLabel with
  | some lab =>
      if lab = "" then p.file ++ ":" ++ toString p.ifLine
      else p.file ++ "#" ++ lab ++ ":" ++ toString p.ifLine
  | none => p.file ++ ":" ++ toString p.ifLine

/-- The missing-target diagnostic of lines 264-267. -/
def notFoundMsg (p : PairDirective) (targetFile : String) : String :=
  "[ifttt] " ++ ifContextOf p ++ " -> ThenChange \x27" ++ p.thenTarget ++
    "\x27 (line " ++ toString p.thenLine ++ "): target file \x27" ++
    targetFile ++ "\x27 not found."

/-- The unchanged-target diagnostic of lines 339-342. -/
def notChangedMsg (p : PairDirective) (targetFile : String) : String :=
  "[ifttt] " ++ ifContextOf p ++ " -> ThenChange \x27" ++ p.thenTarget ++
    "\x27 (line " ++ toString p.thenLine ++ "): target file \x27" ++
    targetFile ++ "\x27 not changed."

/-- The label-not-found diagnostic of lines 352-354. -/
def labelNotFoundMsg (p : PairDirective)
    (targetFile lab availableLabels : String) : String :=
  "[ifttt] " ++ ifContextOf p ++ " -> ThenChange \x27" ++ p.thenTarget ++
    "\x27 (line " ++ toString p.thenLine ++ "): label \x27" ++ lab ++
    "\x27 not found in \x27" ++ targetFile ++ "\x27. Available labels: " ++
    availableLabels

/-- The no-changes-in-label-range diagnostic of lines 366-369. -/
def expectedLabelMsg (p : PairDirective) (targetFile lab : String)
    (s e : Nat) (allChanges : List Nat) : String :=
  "[ifttt] " ++ ifContextOf p ++ " -> ThenChange \x27" ++ p.thenTarget ++
    "\x27 (line " ++ toString p.thenLine ++ "): expected changes in \x27" ++
    targetFile ++ "#" ++ lab ++ "\x27 (" ++ toString s ++ "-" ++ toString e ++
    "), but none found. Actual changes in file: [" ++
    String.intercalate ", " (allChanges.map toString) ++ "]"

/-- The no-changes-in-target diagnostic of lines 377-380. -/
def expectedFileMsg (p : PairDirective) (targetFile : String) : String :=
  "[ifttt] " ++ ifContextOf p ++ " -> ThenChange \x27" ++ p.thenTarget ++
    "\x27 (line " ++ toString p.thenLine ++ "): expected changes in \x27" ++
    targetFile ++ "\x27, but none found."

/-- The loop of `validateDirectiveUniqueness` (src/DirectiveValidator.ts):
truthy `IfChange` labels and `Label` names share one `seen` namespace; a
repeated name emits one diagnostic and counts one error. -/
def validateUniqGo (filePath : String) (seen : List String) :
    List LintDirective → Nat × List String
  | [] => (0, [])
  | d :: rest =>
      match d with
      | .ifChange line lab =>
          (match lab with
           | some name =>
               if name = "" then validateUniqGo filePath seen rest
               else if seen.contains name then
                 let r := validateUniqGo filePath seen rest
                 (r.1 + 1, dupLabelMsg filePath line name :: r.2)
               else validateUniqGo filePath (seen ++ [name]) rest
           | none => validateUniqGo filePath seen rest)
      | .labelDir line name =>
          if seen.contains name then
            let r := validateUniqGo filePath seen rest
            (r.1 + 1, dupLabelMsg filePath line name :: r.2)
          else validateUniqGo filePath (seen ++ [name]) rest
      | _ => validateUniqGo filePath seen rest

/-- `validateDirectiveUniqueness`: the loop from an empty `seen` set,
returning (error count, diagnostics). -/
def validateDirectiveUniqueness (ds : List LintDirective) (filePath : String) :
    Nat × List String :=
  validateUniqGo filePath [] ds

/-- An inclusive label range (`LineRange`). -/
structure LineRange where
  startLine : Nat
  endLine : Nat
deriving DecidableEq, Repr

/-- State of the label-range walk: the recorded ranges map and the pending
stack of open labels (name, startLine). -/
structure LabelScanState where
  ranges : List (String × LineRange)
  pending : List (String × Nat)
deriving DecidableEq, Repr

/-- JavaScript `Map.set`: overwrite in place or append. -/
def rangesSet (m : List (String × LineRange)) (k : String) (v : LineRange) :
    List (String × LineRange) :=
  if m.any (fun e => e.1 == k) then
    m.map (fun e => if e.1 == k then (k, v) else e)
  else m ++ [(k, v)]

/-- The label-range walk of `lintDiff` (lines 275-283): `Label` pushes
`(name, line+1)`; `EndLabel` pops the innermost open label (and is ignored
when none is open) and records `name -> [start, line-1]`. -/
def labelStep (s : LabelScanState) (d : LintDirective) : LabelScanState :=
  match d with
  | .labelDir line name =>
      { s with pending := s.pending ++ [(name, line + 1)] }
  | .endLabel line =>
      (match s.pending.getLast? with
       | none => s
       | some last =>
           { ranges := rangesSet s.ranges last.1 ⟨last.2, line - 1⟩,
             pending := s.pending.dropLast })
  | _ => s

/-- The whole label-range walk for one target file. -/
def computeLabelRanges (ds : List LintDirective) : LabelScanState :=
  ds.foldl labelStep ⟨[], []⟩

/-- Boolean recogniser for `IfChange`. -/
def isIfChange : LintDirective → Bool
  | .ifChange _ _ => true
  | _ => false

/-- Boolean recogniser for `EndLabel`. -/
def isEndLabel : LintDirective → Bool
  | .endLabel _ => true
  | _ => false

/-- Fold per-item `(error count, diagnostics)` contributions in order. -/
def accPairs {α : Type} (f : α → Nat × List String) (l : List α) :
    Nat × List String :=
  l.foldl (fun acc a => (acc.1 + (f a).1, acc.2 ++ (f a).2)) (0, [])

/-- The code-file paths of the diff (line 90). -/
def allChangedOf (env : LintEnv) : List String :=
  (env.changes.map (fun e => e.1)).filter isCodeFile

/-- Lines 92-104: drop paths matching a label-free pattern on basename or
full path. -/
def fileIgnoredBy (pats : List IgnorePattern) (file : String) : Bool :=
  pats.any fun p =>
    labelFalsy p.label &&
      (globMatch p.targetName.toList (basenameStr file).toList ||
       globMatch p.targetName.toList file.toList)

/-- The retained changed files. -/
def changedFilesOf (env : LintEnv) (pats : List IgnorePattern) : List String :=
  (allChangedOf env).filter (fun f => !fileIgnoredBy pats f)

/-- Await all source-side parses; any failure rejects the whole run
(`Promise.all`, lines 115-145). -/
def parseAll (env : LintEnv) :
    List String → Except String (List (String × List LintDirective))
  | [] => .ok []
  | f :: fs =>
      match env.parse f with
      | .error e => .error e
      | .ok ds =>
          match parseAll env fs with
          | .error e => .error e
          | .ok rest => .ok ((f, ds) :: rest)

/-- All pairs formed by Step 1, in file order. -/
def pairsOf (parsed : List (String × List LintDirective)) :
    List PairDirective :=
  (parsed.map (fun e => (scanDirectives e.1 e.2).pairs)).flatten

/-- All orphan `ThenChange` records of Step 1. -/
def orphanThenOf (parsed : List (String × List LintDirective)) :
    List OrphanThen :=
  (parsed.map (fun e => (scanDirectives e.1 e.2).orphanThen.map
    (fun lt => OrphanThen.mk e.1 lt.1 lt.2))).flatten

/-- All orphan `IfChange` records of Step 1. -/
def orphanIfsOf (parsed : List (String × List LintDirective)) :
    List OrphanIf :=
  (parsed.map (fun e => orphanIfOf e.1 e.2)).flatten

/-- One orphan-ThenChange report (lines 147-159). -/
def orphanThenOne (pats : List IgnorePattern) (o : OrphanThen) :
    Nat × List String :=
  if shouldIgnore pats o.target then (0, [])
  else (1, [orphanThenMsg o.file o.line o.target])

/-- The `basename(file)#label` skip test for an orphan `IfChange`
(lines 162-174, with JavaScript truthiness on the label). -/
def orphanIfSkip (pats : List IgnorePattern) (o : OrphanIf) : Bool :=
  match o.ifLabel with
  | some lab =>
      if lab = "" then false
      else pats.any fun p =>
        globMatch p.targetName.toList (basenameStr o.file).toList &&
          p.label == some lab
  | none => false

/-- One orphan-IfChange report (lines 161-180). -/
def orphanIfOne (pats : List IgnorePattern) (o : OrphanIf) :
    Nat × List String :=
  if orphanIfSkip pats o then (0, [])
  else (1, [orphanIfMsg o.file o.line o.ifLabel])

/-- One Step-2 directive check (lines 187-211): a `ThenChange` belonging to
no pair and not ignored is reported against its resolved target. -/
def step2One (pats : List IgnorePattern) (pairs : List PairDirective)
    (file : String) (d : LintDirective) : Nat × List String :=
  match d with
  | .thenChange line target =>
      if pairs.any (fun p => p.file == file && p.thenLine == line) then (0, [])
      else if shouldIgnore pats target then (0, [])
      else (1, [notChangedStep2Msg file line target (resolveTarget file target)])
  | _ => (0, [])

/-- Step 2 over one changed file. -/
def step2File (pats : List IgnorePattern) (pairs : List PairDirective)
    (file : String) (ds : List LintDirective) : Nat × List String :=
  accPairs (step2One pats pairs file) ds

/-- The unique resolved target files, in first-seen order (lines 216-223). -/
def targetFilesOf (pairs : List PairDirective) : List String :=
  pairs.foldl (fun acc p =>
    let t := resolveTarget p.file p.thenTarget
    if acc.contains t then acc else acc ++ [t]) []

/-- The ignore checks for a missing-target pair (lines 249-254). -/
def pairIfSkip (pats : List IgnorePattern) (p : PairDirective) : Bool :=
  match p.ifLabel with
  | some lab =>
      if lab = "" then false
      else pats.any fun pat =>
        globMatch pat.targetName.toList (basenameStr p.file).toList &&
          pat.label == some lab
  | none => false

/-- One missing-target report for a pair whose resolved target is the
failed file (lines 242-270). -/
def notFoundOne (pats : List IgnorePattern) (file : String)
    (p : PairDirective) : Nat × List String :=
  if resolveTarget p.file p.thenTarget == file then
    if shouldIgnore pats p.thenTarget || pairIfSkip pats p then (0, [])
    else (1, [notFoundMsg p file])
  else (0, [])

/-- The per-path memoisation of the parse futures (lines 113-119 and
230-235): a target that was a changed file reuses its result. -/
def cachedParse (env : LintEnv) (parsed : List (String × List LintDirective))
    (f : String) : Except String (List LintDirective) :=
  match parsed.find? (fun e => e.1 == f) with
  | some e => .ok e.2
  | none => env.parse f

/-- One Step-3 target: on parse failure report all affected pairs, on
success validate uniqueness (the label walk itself emits nothing). -/
def step3One (env : LintEnv) (pats : List IgnorePattern)
    (parsed : List (String × List LintDirective)) (pairs : List PairDirective)
    (f : String) : Nat × List String :=
  match cachedParse env parsed f with
  | .error _ => accPairs (notFoundOne pats f) pairs
  | .ok ds => validateDirectiveUniqueness ds f

/-- The label-range maps recorded by Step 3 (line 284). -/
def step3Ranges (env : LintEnv) (parsed : List (String × List LintDirective))
    (targets : List String) : List (String × List (String × LineRange)) :=
  targets.foldl (fun acc f =>
    match cachedParse env parsed f with
    | .error _ => acc
    | .ok ds => acc ++ [(f, (computeLabelRanges ds).ranges)]) []

/-- `labelRanges.get(targetFile)`. -/
def lookupRanges (rs : List (String × List (String × LineRange)))
    (k : String) : Option (List (String × LineRange)) :=
  (rs.find? (fun e => e.1 == k)).map (fun e => e.2)

/-- `ranges.get(label)`. -/
def rangesGet (m : List (String × LineRange)) (k : String) :
    Option LineRange :=
  (m.find? (fun e => e.1 == k)).map (fun e => e.2)

/-- `Array.from(ranges.keys()).join(', ') || 'none'` (line 349). -/
def availableLabelsOf (ranges : Option (List (String × LineRange))) : String :=
  match ranges with
  | none => "none"
  | some m =>
      let s := String.intercalate ", " (m.map (fun e => e.1))
      if s = "" then "none" else s

/-- Stable insertion into an ascending list. -/
def insertSorted (n : Nat) : List Nat → List Nat
  | [] => [n]
  | m :: rest => if n ≤ m then n :: m :: rest else m :: insertSorted n rest

/-- JavaScript `[...].sort((a, b) => a - b)`. -/
def sortNums (l : List Nat) : List Nat := l.foldr insertSorted []

/-- The per-pair validation of Step 3 of the engine (lines 291-384). -/
def validatePair (env : LintEnv) (pats : List IgnorePattern)
    (labelRanges : List (String × List (String × LineRange)))
    (p : PairDirective) : Nat × List String :=
  if pairIfSkip pats p then (0, [])
  else if shouldIgnore pats p.thenTarget then (0, [])
  else
    match lookupChanges env.changes p.file with
    | none => (0, [])
    | some changes =>
        if !(changes.addedLines.contains p.ifLine ||
             changes.removedLines.contains p.ifLine) then (0, [])
        else
          match lookupChanges env.changes (resolveTarget p.file p.thenTarget) with
          | none =>
              if env.fileAccess (resolveTarget p.file p.thenTarget) then
                (1, [notChangedMsg p (resolveTarget p.file p.thenTarget)])
              else (0, [])
          | some targetChanges =>
              if labelTruthy ((splitHash p.thenTarget)[1]?) then
                match (lookupRanges labelRanges
                    (resolveTarget p.file p.thenTarget)).bind
                    (fun m => rangesGet m (((splitHash p.thenTarget)[1]?).getD "")) with
                | none =>
                    (1, [labelNotFoundMsg p (resolveTarget p.file p.thenTarget)
                      (((splitHash p.thenTarget)[1]?).getD "")
                      (availableLabelsOf (lookupRanges labelRanges
                        (resolveTarget p.file p.thenTarget)))])
                | some range =>
                    if ((targetChanges.addedLines ++
                        targetChanges.removedLines).filter
                      (fun l => range.startLine ≤ l && l ≤ range.endLine)).length
                        = 0 then
                      (1, [expectedLabelMsg p
                        (resolveTarget p.file p.thenTarget)
                        (((splitHash p.thenTarget)[1]?).getD "")
                        range.startLine range.endLine
                        (sortNums (targetChanges.addedLines ++
                          targetChanges.removedLines))])
                    else (0, [])
              else
                if (sortNums (targetChanges.addedLines ++
                    targetChanges.removedLines)).length = 0 then
                  (1, [expectedFileMsg p (resolveTarget p.file p.thenTarget)])
                else (0, [])

/-- The result of one engine run. -/
structure LintResult where
  exitCode : Nat
  errors : Nat
  violations : List String
deriving DecidableEq, Repr

/-- `lintDiff` (src/LintEngine.ts lines 52-387) as a pure function: Phase A
filters the changed files, Step 1 parses them and builds pairs and orphans
(reported subject to ignore patterns), Step 2 re-reports pairless
`ThenChange` directives, Step 3 resolves targets, parses them (reporting
missing ones per affected pair) and records label ranges, then validates
every pair; the exit code is `errors > 0 ? 1 : 0`. -/
def lintDiff (env : LintEnv) (ignoreList : List String) :
    Except String LintResult :=
  let pats := ignoreList.map mkIgnorePattern
  match parseAll env (changedFilesOf env pats) with
  | .error e => .error e
  | .ok parsed =>
      let pairs := pairsOf parsed
      let uniq := accPairs (fun e => validateDirectiveUniqueness e.2 e.1) parsed
      let ot := accPairs (orphanThenOne pats) (orphanThenOf parsed)
      let oi := accPairs (orphanIfOne pats) (orphanIfsOf parsed)
      let s2 := accPairs (fun e => step2File pats pairs e.1 e.2) parsed
      let targets := (targetFilesOf pairs).filter isCodeFile
      let s3 := accPairs (step3One env pats parsed pairs) targets
      let rs := step3Ranges env parsed targets
      let s4 := accPairs (validatePair env pats rs) pairs
      let errors := uniq.1 + ot.1 + oi.1 + s2.1 + s3.1 + s4.1
      let out := uniq.2 ++ ot.2 ++ oi.2 ++ s2.2 ++ s3.2 ++ s4.2
      .ok ⟨if errors > 0 then 1 else 0, errors, out⟩

/-! ### Engine lemmas -/

theorem accPairs_eq {α : Type} (f : α → Nat × List String) (l : List α) :
    accPairs f l =
      ((l.map (fun a => (f a).1)).sum, (l.map (fun a => (f a).2)).flatten) := by
  have h : ∀ acc : Nat × List String,
      l.foldl (fun acc a => (acc.1 + (f a).1, acc.2 ++ (f a).2)) acc =
        (acc.1 + (l.map (fun a => (f a).1)).sum,
         acc.2 ++ (l.map (fun a => (f a).2)).flatten) := by
    induction l with
    | nil => intro acc; simp
    | cons a rest ih =>
        intro acc
        rw [List.foldl_cons, ih]
        simp [Nat.add_assoc]
  rw [accPairs, h (0, [])]
  simp

theorem accPairs_len {α : Type} (f : α → Nat × List String)
    (hf : ∀ a, (f a).1 = (f a).2.length) (l : List α) :
    (accPairs f l).1 = (accPairs f l).2.length := by
  rw [accPairs_eq]
  simp only [List.length_flatten, List.map_map]
  congr 1
  apply List.map_congr_left
  intro a _
  exact hf a

theorem accPairs_mem {α : Type} (f : α → Nat × List String) (l : List α)
    (a : α) (ha : a ∈ l) (m : String) (hm : m ∈ (f a).2) :
    m ∈ (accPairs f l).2 := by
  rw [accPairs_eq]
  exact List.mem_flatten.2 ⟨(f a).2, List.mem_map_of_mem _ ha, hm⟩

theorem accPairs_pos {α : Type} (f : α → Nat × List String) (l : List α)
    (a : α) (ha : a ∈ l) (hpos : 1 ≤ (f a).1) : 1 ≤ (accPairs f l).1 := by
  rw [accPairs_eq]
  exact le_trans hpos
    (List.single_le_sum (fun x _ => Nat.zero_le x) _
      (List.mem_map_of_mem _ ha))

theorem validateUniqGo_len (filePath : String) (ds : List LintDirective)
    (seen : List String) :
    (validateUniqGo filePath seen ds).1 =
      (validateUniqGo filePath seen ds).2.length := by
  induction ds generalizing seen with
  | nil => rfl
  | cons d rest ih =>
      cases d with
      | ifChange line lab =>
          cases lab with
          | none => exact ih seen
          | some name =>
              by_cases h1 : name = ""
              · simp only [validateUniqGo, if_pos h1]
                exact ih seen
              · by_cases h2 : seen.contains name = true
                · simp only [validateUniqGo, if_neg h1, if_pos h2]
                  simp [ih seen]
                · simp only [validateUniqGo, if_neg h1,
                    if_neg (fun hh => h2 hh)]
                  exact ih (seen ++ [name])
      | thenChange line target => exact ih seen
      | labelDir line name =>
          by_cases h2 : seen.contains name = true
          · simp only [validateUniqGo, if_pos h2]
            simp [ih seen]
          · simp only [validateUniqGo, if_neg (fun hh => h2 hh)]
            exact ih (seen ++ [name])
      | endLabel line => exact ih seen

theorem validateUniq_len (ds : List LintDirective) (filePath : String) :
    (validateDirectiveUniqueness ds filePath).1 =
      (validateDirectiveUniqueness ds filePath).2.length :=
  validateUniqGo_len filePath ds []

theorem orphanThenOne_len (pats : List IgnorePattern) (o : OrphanThen) :
    (orphanThenOne pats o).1 = (orphanThenOne pats o).2.length := by
  unfold orphanThenOne
  split <;> rfl

theorem orphanIfOne_len (pats : List IgnorePattern) (o : OrphanIf) :
    (orphanIfOne pats o).1 = (orphanIfOne pats o).2.length := by
  unfold orphanIfOne
  split <;> rfl

theorem step2One_len (pats : List IgnorePattern) (pairs : List PairDirective)
    (file : String) (d : LintDirective) :
    (step2One pats pairs file d).1 = (step2One pats pairs file d).2.length := by
  unfold step2One
  repeat' split
  all_goals rfl

theorem step2File_len (pats : List IgnorePattern) (pairs : List PairDirective)
    (file : String) (ds : List LintDirective) :
    (step2File pats pairs file ds).1 = (step2File pats pairs file ds).2.length :=
  accPairs_len _ (step2One_len pats pairs file) ds

theorem notFoundOne_len (pats : List IgnorePattern) (file : String)
    (p : PairDirective) :
    (notFoundOne pats file p).1 = (notFoundOne pats file p).2.length := by
  unfold notFoundOne
  repeat' split
  all_goals rfl

theorem step3One_len (env : LintEnv) (pats : List IgnorePattern)
    (parsed : List (String × List LintDirective)) (pairs : List PairDirective)
    (f : String) :
    (step3One env pats parsed pairs f).1 =
      (step3One env pats parsed pairs f).2.length := by
  unfold step3One
  cases cachedParse env parsed f with
  | error e => exact accPairs_len _ (notFoundOne_len pats f) pairs
  | ok ds => exact validateUniq_len ds f

theorem validatePair_len (env : LintEnv) (pats : List IgnorePattern)
    (rs : List (String × List (String × LineRange))) (p : PairDirective) :
    (validatePair env pats rs p).1 = (validatePair env pats rs p).2.length := by
  unfold validatePair
  repeat' split
  all_goals rfl

theorem parseAll_ok (env : LintEnv) (fs : List String)
    (parsed : List (String × List LintDirective))
    (h : parseAll env fs = .ok parsed) :
    parsed.map (fun e => e.1) = fs ∧ ∀ e ∈ parsed, env.parse e.1 = .ok e.2 := by
  induction fs generalizing parsed with
  | nil =>
      rw [parseAll] at h
      injection h with h
      subst h
      simp
  | cons f rest ih =>
      rw [parseAll] at h
      cases he : env.parse f with
      | error e => rw [he] at h; cases h
      | ok ds =>
          rw [he] at h
          cases hr : parseAll env rest with
          | error e => rw [hr] at h; cases h
          | ok prest =>
              rw [hr] at h
              injection h with h
              subst h
              obtain ⟨hmap, hall⟩ := ih prest hr
              refine ⟨by simp [hmap], ?_⟩
              intro e he2
              rcases List.mem_cons.1 he2 with rfl | hmem
              · exact he
              · exact hall e hmem

theorem parseAll_mem (env : LintEnv) (fs : List String)
    (parsed : List (String × List LintDirective))
    (h : parseAll env fs = .ok parsed) (f : String) (ds : List LintDirective)
    (hf : f ∈ fs) (hp : env.parse f = .ok ds) :
    (f, ds) ∈ parsed := by
  obtain ⟨hmap, hall⟩ := parseAll_ok env fs parsed h
  rw [← hmap] at hf
  obtain ⟨e, he, hfe⟩ := List.mem_map.1 hf
  have h2 := hall e he
  rw [hfe, hp] at h2
  injection h2 with h2
  have : e = (f, ds) := by
    cases e
    simp only at hfe h2
    rw [hfe, h2]
  rw [← this]
  exact he

/-- The directive lines and targets of the `ThenChange` entries, in order. -/
def thenList (ds : List LintDirective) : List (Nat × String) :=
  ds.filterMap (fun d => match d with
    | .thenChange l t => some (l, t)
    | _ => none)

theorem scan_noIf (file : String) (ds : List LintDirective)
    (h : ∀ d ∈ ds, isIfChange d = false) (s : ScanState)
    (hs : s.currentIf = none) :
    ds.foldl (scanStep file) s =
      { s with orphanThen := s.orphanThen ++ thenList ds } := by
  induction ds generalizing s with
  | nil =>
      cases s
      simp [thenList]
  | cons d rest ih =>
      cases d with
      | ifChange l lab =>
          exact absurd (h _ (List.mem_cons_self _ _)) (by simp [isIfChange])
      | thenChange l t =>
          rw [List.foldl_cons]
          have hstep : scanStep file s (.thenChange l t) =
              { s with orphanThen := s.orphanThen ++ [(l, t)] } := by
            simp [scanStep, hs]
          rw [hstep, ih (fun d hd => h d (List.mem_cons_of_mem _ hd))
            { s with orphanThen := s.orphanThen ++ [(l, t)] } hs]
          simp [thenList, List.filterMap_cons]
      | labelDir l n =>
          rw [List.foldl_cons]
          have hstep : scanStep file s (.labelDir l n) = s := rfl
          rw [hstep, ih (fun d hd => h d (List.mem_cons_of_mem _ hd)) _ hs]
          simp [thenList, List.filterMap_cons]
      | endLabel l =>
          rw [List.foldl_cons]
          have hstep : scanStep file s (.endLabel l) = s := rfl
          rw [hstep, ih (fun d hd => h d (List.mem_cons_of_mem _ hd)) _ hs]
          simp [thenList, List.filterMap_cons]

theorem scanDirectives_noIf (file : String) (ds : List LintDirective)
    (h : ∀ d ∈ ds, isIfChange d = false) :
    scanDirectives file ds = ⟨none, false, [], thenList ds⟩ := by
  rw [scanDirectives, scan_noIf file ds h _ rfl]
  rfl

theorem scan_pairs_file (file : String) (ds : List LintDirective)
    (s : ScanState) (hs : ∀ p ∈ s.pairs, p.file = file) :
    ∀ p ∈ (ds.foldl (scanStep file) s).pairs, p.file = file := by
  induction ds generalizing s with
  | nil => exact hs
  | cons d rest ih =>
      rw [List.foldl_cons]
      apply ih
      cases d with
      | ifChange l lab => exact hs
      | thenChange l t =>
          cases hc : s.currentIf with
          | none =>
              intro p hp
              rw [show scanStep file s (.thenChange l t) =
                { s with orphanThen := s.orphanThen ++ [(l, t)] } from by
                  simp [scanStep, hc]] at hp
              exact hs p hp
          | some c =>
              intro p hp
              rw [show scanStep file s (.thenChange l t) =
                { s with pairs := s.pairs ++ [⟨file, c.1, c.2, t, l⟩],
                         sawThen := true } from by simp [scanStep, hc]] at hp
              simp only [List.mem_append, List.mem_singleton] at hp
              rcases hp with hp | rfl
              · exact hs p hp
              · rfl
      | labelDir l n => exact hs
      | endLabel l => exact hs

theorem pairsOf_file (parsed : List (String × List LintDirective))
    (p : PairDirective) (hp : p ∈ pairsOf parsed) :
    ∃ e ∈ parsed, p.file = e.1 ∧ p ∈ (scanDirectives e.1 e.2).pairs := by
  rw [pairsOf] at hp
  obtain ⟨l, hl, hpl⟩ := List.mem_flatten.1 hp
  obtain ⟨e, he, hle⟩ := List.mem_map.1 hl
  subst hle
  exact ⟨e, he, (scan_pairs_file e.1 e.2 _ (by simp [ScanState.pairs])) p hpl,
    hpl⟩

/-- C2: whenever `lintDiff` returns (rather than propagating a parse
failure), its exit code is 0 or 1; it is 0 exactly when no violation
diagnostic was emitted, and 1 exactly when at least one was. -/
theorem C2_exit_code (env : LintEnv) (ignoreList : List String)
    (r : LintResult) (h : lintDiff env ignoreList = .ok r) :
    (r.exitCode = 0 ∨ r.exitCode = 1) ∧
    (r.exitCode = 0 ↔ r.violations.length = 0) ∧
    (r.exitCode = 1 ↔ 1 ≤ r.violations.length) := by
  unfold lintDiff at h
  dsimp only at h
  cases hp : parseAll env
      (changedFilesOf env (ignoreList.map mkIgnorePattern)) with
  | error e =>
      rw [hp] at h
      cases h
  | ok parsed =>
      rw [hp] at h
      injection h with h
      subst h
      have h1 := accPairs_len (fun e => validateDirectiveUniqueness e.2 e.1)
        (fun e => validateUniq_len e.2 e.1) parsed
      have h2 := accPairs_len _
        (orphanThenOne_len (ignoreList.map mkIgnorePattern))
        (orphanThenOf parsed)
      have h3 := accPairs_len _
        (orphanIfOne_len (ignoreList.map mkIgnorePattern))
        (orphanIfsOf parsed)
      have h4 := accPairs_len
        (fun e => step2File (ignoreList.map mkIgnorePattern)
          (pairsOf parsed) e.1 e.2)
        (fun e => step2File_len (ignoreList.map mkIgnorePattern)
          (pairsOf parsed) e.1 e.2) parsed
      have h5 := accPairs_len _
        (step3One_len env (ignoreList.map mkIgnorePattern) parsed
          (pairsOf parsed))
        ((targetFilesOf (pairsOf parsed)).filter isCodeFile)
      have h6 := accPairs_len _
        (validatePair_len env (ignoreList.map mkIgnorePattern)
          (step3Ranges env parsed
            ((targetFilesOf (pairsOf parsed)).filter isCodeFile)))
        (pairsOf parsed)
      simp only [LintResult.exitCode, LintResult.violations]
      rw [List.length_append, List.length_append, List.length_append,
        List.length_append, List.length_append,
        ← h1, ← h2, ← h3, ← h4, ← h5, ← h6]
      by_cases hE : 0 <
          (accPairs (fun e => validateDirectiveUniqueness e.2 e.1) parsed).1 +
          (accPairs (orphanThenOne (ignoreList.map mkIgnorePattern))
            (orphanThenOf parsed)).1 +
          (accPairs (orphanIfOne (ignoreList.map mkIgnorePattern))
            (orphanIfsOf parsed)).1 +
          (accPairs (fun e => step2File (ignoreList.map mkIgnorePattern)
            (pairsOf parsed) e.1 e.2) parsed).1 +
          (accPairs (step3One env (ignoreList.map mkIgnorePattern) parsed
            (pairsOf parsed))
            ((targetFilesOf (pairsOf parsed)).filter isCodeFile)).1 +
          (accPairs (validatePair env (ignoreList.map mkIgnorePattern)
            (step3Ranges env parsed
              ((targetFilesOf (pairsOf parsed)).filter isCodeFile)))
            (pairsOf parsed)).1
      · rw [if_pos hE]
        refine ⟨Or.inr rfl, ?_, ?_⟩ <;> constructor <;> intro hh <;> omega
      · rw [if_neg hE]
        refine ⟨Or.inl rfl, ?_, ?_⟩ <;> constructor <;> intro hh <;> omega

/-- Closed instance of `C2_exit_code` on the empty diff: exit code 0 with
no diagnostics. -/
theorem C2_witness :
    ((LintResult.mk 0 0 []).exitCode = 0 ∨
      (LintResult.mk 0 0 []).exitCode = 1) ∧
    ((LintResult.mk 0 0 []).exitCode = 0 ↔
      (LintResult.mk 0 0 []).violations.length = 0) ∧
    ((LintResult.mk 0 0 []).exitCode = 1 ↔
      1 ≤ (LintResult.mk 0 0 []).violations.length) :=
  C2_exit_code ⟨[], fun _ => .ok [], fun _ => true⟩ [] ⟨0, 0, []⟩ rfl

/-- C9: a changed, retained file whose directives contain a `ThenChange`
with no preceding `IfChange` (here: no `IfChange` at all), whose target
matches no ignore pattern, draws two diagnostics and two counted errors
from `lintDiff` for that one directive: the orphan report of Step 1 and the
`target file ... not changed.` report of the pairless-`ThenChange` pass
(Step 2). -/
theorem C9_orphan_double_report (env : LintEnv) (ignoreList : List String)
    (file target : String) (line : Nat) (ds : List LintDirective)
    (r : LintResult)
    (hrun : lintDiff env ignoreList = .ok r)
    (hfile : file ∈ changedFilesOf env (ignoreList.map mkIgnorePattern))
    (hparse : env.parse file = .ok ds)
    (hnoif : ∀ d ∈ ds, isIfChange d = false)
    (hd : LintDirective.thenChange line target ∈ ds)
    (hig : shouldIgnore (ignoreList.map mkIgnorePattern) target = false) :
    orphanThenMsg file line target ∈ r.violations ∧
    notChangedStep2Msg file line target (resolveTarget file target) ∈
      r.violations ∧
    2 ≤ r.errors := by
  unfold lintDiff at hrun
  dsimp only at hrun
  cases hp : parseAll env
      (changedFilesOf env (ignoreList.map mkIgnorePattern)) with
  | error e =>
      rw [hp] at hrun
      cases hrun
  | ok parsed =>
      rw [hp] at hrun
      injection hrun with hrun
      subst hrun
      have hmem : (file, ds) ∈ parsed :=
        parseAll_mem env _ parsed hp file ds hfile hparse
      have hscan := scanDirectives_noIf file ds hnoif
      have hoT : OrphanThen.mk file line target ∈ orphanThenOf parsed := by
        rw [orphanThenOf]
        refine List.mem_flatten.2 ⟨_, List.mem_map_of_mem _ hmem, ?_⟩
        rw [hscan]
        refine List.mem_map.2 ⟨(line, target), ?_, rfl⟩
        exact List.mem_filterMap.2 ⟨_, hd, rfl⟩
      have hoTone : orphanThenOne (ignoreList.map mkIgnorePattern)
          ⟨file, line, target⟩ = (1, [orphanThenMsg file line target]) := by
        rw [orphanThenOne, if_neg (fun hh => by rw [hig] at hh; cases hh)]
      have hm1 : orphanThenMsg file line target ∈
          (accPairs (orphanThenOne (ignoreList.map mkIgnorePattern))
            (orphanThenOf parsed)).2 := by
        refine accPairs_mem _ _ _ hoT _ ?_
        rw [hoTone]
        exact List.mem_singleton.2 rfl
      have hc1 : 1 ≤ (accPairs (orphanThenOne (ignoreList.map mkIgnorePattern))
          (orphanThenOf parsed)).1 := by
        refine accPairs_pos _ _ _ hoT ?_
        rw [hoTone]
      have hnopair : ∀ p ∈ pairsOf parsed,
          (p.file == file && p.thenLine == line) = false := by
        intro p hpmem
        obtain ⟨e, he, hfeq, hpin⟩ := pairsOf_file parsed p hpmem
        by_cases hq : p.file = file
        · exfalso
          have he1 : e.1 = file := by rw [← hfeq, hq]
          have hpe := (parseAll_ok env _ parsed hp).2 e he
          rw [he1, hparse] at hpe
          injection hpe with hpe
          have hnil : (scanDirectives e.1 e.2).pairs = [] := by
            rw [he1, ← hpe, hscan]
          rw [hnil] at hpin
          cases hpin
        · simp [hq]
      have hany : (pairsOf parsed).any
          (fun p => p.file == file && p.thenLine == line) = false := by
        rw [List.any_eq_false]
        intro p hpmem
        simp only [Bool.not_eq_true]
        exact hnopair p hpmem
      have hstep2 : step2One (ignoreList.map mkIgnorePattern)
          (pairsOf parsed) file (.thenChange line target) =
          (1, [notChangedStep2Msg file line target
            (resolveTarget file target)]) := by
        rw [step2One, if_neg (fun hh => by rw [hany] at hh; cases hh),
          if_neg (fun hh => by rw [hig] at hh; cases hh)]
      have hm2 : notChangedStep2Msg file line target
          (resolveTarget file target) ∈
          (accPairs (fun e => step2File (ignoreList.map mkIgnorePattern)
            (pairsOf parsed) e.1 e.2) parsed).2 := by
        refine accPairs_mem _ _ (file, ds) hmem _ ?_
        refine accPairs_mem _ _ (.thenChange line target) hd _ ?_
        rw [hstep2]
        exact List.mem_singleton.2 rfl
      have hc2 : 1 ≤ (accPairs (fun e =>
          step2File (ignoreList.map mkIgnorePattern)
            (pairsOf parsed) e.1 e.2) parsed).1 := by
        refine accPairs_pos _ _ (file, ds) hmem ?_
        refine accPairs_pos _ _ (.thenChange line target) hd ?_
        rw [hstep2]
      refine ⟨?_, ?_, ?_⟩
      · simp only [LintResult.violations, List.mem_append]
        exact Or.inl (Or.inl (Or.inl (Or.inl (Or.inr hm1))))
      · simp only [LintResult.violations, List.mem_append]
        exact Or.inl (Or.inl (Or.inr hm2))
      · simp only [LintResult.errors]
        omega

set_option maxHeartbeats 2000000 in
/-- Closed instance of `C9_orphan_double_report`: a one-file diff whose
file holds a single orphan `ThenChange("b.ts")` gets both diagnostics and
two errors. -/
theorem C9_witness :
    orphanThenMsg "a.ts" 2 "b.ts" ∈
      (LintResult.mk 1 2 [orphanThenMsg "a.ts" 2 "b.ts",
        notChangedStep2Msg "a.ts" 2 "b.ts" "b.ts"]).violations ∧
    notChangedStep2Msg "a.ts" 2 "b.ts"
        (resolveTarget "a.ts" "b.ts") ∈
      (LintResult.mk 1 2 [orphanThenMsg "a.ts" 2 "b.ts",
        notChangedStep2Msg "a.ts" 2 "b.ts" "b.ts"]).violations ∧
    2 ≤ (LintResult.mk 1 2 [orphanThenMsg "a.ts" 2 "b.ts",
        notChangedStep2Msg "a.ts" 2 "b.ts" "b.ts"]).errors :=
  C9_orphan_double_report
    ⟨[("a.ts", ⟨[1], []⟩)],
     fun f => if f = "a.ts" then .ok [.thenChange 2 "b.ts"] else .ok [],
     fun _ => false⟩
    [] "a.ts" "b.ts" 2 [.thenChange 2 "b.ts"]
    (LintResult.mk 1 2 [orphanThenMsg "a.ts" 2 "b.ts",
      notChangedStep2Msg "a.ts" 2 "b.ts" "b.ts"]) rfl (by decide) rfl
    (by decide) (by decide) rfl

theorem labelFold_ranges_const (ds : List LintDirective) (s : LabelScanState)
    (h : ∀ d ∈ ds, isEndLabel d = false) :
    (ds.foldl labelStep s).ranges = s.ranges := by
  induction ds generalizing s with
  | nil => rfl
  | cons d rest ih =>
      rw [List.foldl_cons]
      rw [ih _ (fun x hx => h x (List.mem_cons_of_mem _ hx))]
      cases d with
      | ifChange l lab => rfl
      | thenChange l t => rfl
      | labelDir l n => rfl
      | endLabel l =>
          exact absurd (h _ (List.mem_cons_self _ _)) (by simp [isEndLabel])

/-- C10: in the label-range walk, an `EndLabel` with no open label is a
no-op, and a `Label` never followed by a matching `EndLabel` contributes no
entry to the ranges map (here: no `EndLabel` follows it at all); neither
situation emits a diagnostic or counts an error — a successfully parsed
target contributes only its uniqueness diagnostics.  A triggered pair whose
target changed but whose referenced label is absent from the recorded
ranges is reported with the `label ... not found` diagnostic. -/
theorem C10_unmatched_labels (pats : List IgnorePattern)
    (rs : List (String × List (String × LineRange))) (env : LintEnv) :
    (∀ (line : Nat) (s : LabelScanState), s.pending = [] →
      labelStep s (.endLabel line) = s) ∧
    (∀ (ds₁ ds₂ : List LintDirective) (l : Nat) (n : String),
      (∀ d ∈ ds₂, isEndLabel d = false) →
      (computeLabelRanges (ds₁ ++ .labelDir l n :: ds₂)).ranges =
        (computeLabelRanges (ds₁ ++ ds₂)).ranges) ∧
    (∀ (parsed : List (String × List LintDirective))
       (pairs : List PairDirective) (f : String) (ds : List LintDirective),
      cachedParse env parsed f = .ok ds →
      step3One env pats parsed pairs f = validateDirectiveUniqueness ds f) ∧
    (∀ (p : PairDirective) (changes tch : FileChanges),
      pairIfSkip pats p = false →
      shouldIgnore pats p.thenTarget = false →
      lookupChanges env.changes p.file = some changes →
      (changes.addedLines.contains p.ifLine ||
        changes.removedLines.contains p.ifLine) = true →
      lookupChanges env.changes (resolveTarget p.file p.thenTarget) =
        some tch →
      labelTruthy ((splitHash p.thenTarget)[1]?) = true →
      ((lookupRanges rs (resolveTarget p.file p.thenTarget)).bind
        (fun m => rangesGet m (((splitHash p.thenTarget)[1]?).getD ""))) =
          none →
      validatePair env pats rs p =
        (1, [labelNotFoundMsg p (resolveTarget p.file p.thenTarget)
          (((splitHash p.thenTarget)[1]?).getD "")
          (availableLabelsOf
            (lookupRanges rs (resolveTarget p.file p.thenTarget)))])) := by
  refine ⟨?_, ?_, ?_, ?_⟩
  · intro line s hs
    simp [labelStep, hs]
  · intro ds₁ ds₂ l n h
    rw [computeLabelRanges, computeLabelRanges,
      List.foldl_append, List.foldl_append, List.foldl_cons]
    rw [labelFold_ranges_const ds₂ _ h, labelFold_ranges_const ds₂ _ h]
    rfl
  · intro parsed pairs f ds hc
    rw [step3One, hc]
  · intro p changes tch hskip hig hch htrig htch hlab hnone
    simp only [validatePair, hskip, hig, hch, htrig, htch, hlab, hnone,
      Bool.not_true, Bool.false_eq_true, if_false, if_true,
      Bool.or_eq_true, ite_false, ite_true]

set_option maxHeartbeats 1000000 in
/-- Closed instance of `C10_unmatched_labels`: an `EndLabel` on an empty
stack is ignored, and a triggered pair referencing label `x` of a target
whose recorded ranges map is empty is reported as label-not-found with
`Available labels: none`. -/
theorem C10_witness :
    labelStep ⟨[], []⟩ (.endLabel 7) = ⟨[], []⟩ ∧
    validatePair
      ⟨[("a.ts", ⟨[1], []⟩), ("b.ts", ⟨[5], []⟩)],
       fun _ => .ok [], fun _ => true⟩ [] [("b.ts", [])]
      ⟨"a.ts", 1, none, "b.ts#x", 2⟩ =
      (1, [labelNotFoundMsg ⟨"a.ts", 1, none, "b.ts#x", 2⟩ "b.ts" "x"
        "none"]) := by
  constructor
  · exact (C10_unmatched_labels [] [] ⟨[], fun _ => .ok [], fun _ => true⟩).1
      7 ⟨[], []⟩ rfl
  · exact ((C10_unmatched_labels [] [("b.ts", [])]
      ⟨[("a.ts", ⟨[1], []⟩), ("b.ts", ⟨[5], []⟩)],
       fun _ => .ok [], fun _ => true⟩).2.2.2
      ⟨"a.ts", 1, none, "b.ts#x", 2⟩ ⟨[1], []⟩ ⟨[5], []⟩
      rfl rfl rfl rfl rfl rfl rfl).trans rfl

end Ifttt
